import Mathlib

/-!
A verification development for the ostree-rs-ext sources: the tar import
filter (`src/tar/write.rs`), the commit preparation walker (`src/commit.rs`),
the container reference grammar and manifest diff (`src/container/mod.rs`),
and the fetch pipeline helpers (`src/container/unencapsulate.rs`).

Paths and other byte strings are modelled as `List Char`; machine integers
that never overflow in the modelled scenarios (`u32`/`u64` counters,
`i32` error counts) are modelled as `Nat`/`Int`; fallible Rust functions
returning `anyhow::Result` are modelled with `Except`/`Option`.
-/

/-! ## Path components (camino `Utf8Component`, Unix flavour)

`camino::Utf8Component` for Unix paths: `RootDir`, `CurDir`, `ParentDir`
and `Normal`.  Windows-style path roots cannot arise from Unix path
strings and are omitted. -/

inductive Utf8Component where
  | rootDir : Utf8Component
  | curDir : Utf8Component
  | parentDir : Utf8Component
  | normal (s : List Char) : Utf8Component
deriving DecidableEq, Repr

/-- Split a character list on `'/'` separators. -/
def splitOnSlash : List Char → List (List Char)
  | [] => [[]]
  | c :: r =>
    if c = '/' then [] :: splitOnSlash r
    else
      match splitOnSlash r with
      | a :: t => (c :: a) :: t
      | [] => [[c]]

/-- The non-root components of a path string: split on separators, drop
empty and interior-`.` parts, parse `..` as `ParentDir`. -/
def parseBody (cs : List Char) : List Utf8Component :=
  ((splitOnSlash cs).filter (fun p => p ≠ [] ∧ p ≠ ".".data)).map (fun p =>
    if p = "..".data then Utf8Component.parentDir else Utf8Component.normal p)

/-- `Utf8Path::components()` on a Unix path string: separators collapse,
interior `.` components are dropped, a leading `/` becomes `RootDir`, a
leading `.` is kept as `CurDir`, `..` parses as `ParentDir`. -/
def parseComponents (cs : List Char) : List Utf8Component :=
  if cs.head? = some '/' then Utf8Component.rootDir :: parseBody cs
  else if cs = ".".data ∨ cs.take 2 = "./".data then Utf8Component.curDir :: parseBody cs
  else parseBody cs

/-- String rendering of a component, as pushed onto a `Utf8PathBuf`. -/
def compStr : Utf8Component → List Char
  | .rootDir => "/".data
  | .curDir => ".".data
  | .parentDir => "..".data
  | .normal s => s

/-- `Utf8PathBuf::push`: an absolute piece replaces the path, otherwise the
piece is appended after a `/` separator (none needed on an empty path). -/
def pathPush (base piece : List Char) : List Char :=
  if piece.head? = some '/' then piece
  else if base = [] then piece
  else base ++ '/' :: piece

/-! ## `normalize_validate_path` (src/tar/write.rs) -/

inductive NormalizedPathResult where
  | Filtered (top : List Char) : NormalizedPathResult
  | Normal (p : List Char) : NormalizedPathResult
deriving DecidableEq, Repr

/-- The component mapping inside `normalize_validate_path`: absolute roots
fold to `CurDir`, normal and current-dir parts pass through, everything
else (`..`, Windows-style roots) is an error. -/
def mapComponent : Utf8Component → Except Unit Utf8Component
  | .rootDir => .ok .curDir
  | .curDir => .ok .curDir
  | .normal s => .ok (.normal s)
  | .parentDir => .error ()

/-- The `for part in components` loop of `normalize_validate_path`.  The
first `Normal` component decides: `usr` is kept, `etc` is rewritten to
`usr/etc`, anything else yields `Filtered`. -/
def normLoop : List (Except Unit Utf8Component) → Bool → List Char →
    Except Unit NormalizedPathResult
  | [], _, ret => .ok (.Normal ret)
  | .error e :: _, _, _ => .error e
  | .ok part :: rest, foundFirst, ret =>
    if foundFirst then
      normLoop rest true (pathPush ret (compStr part))
    else
      match part with
      | .normal s =>
        if s = "usr".data then normLoop rest true (pathPush ret s)
        else if s = "etc".data then normLoop rest true (pathPush ret "usr/etc".data)
        else .ok (.Filtered s)
      | p => normLoop rest false (pathPush ret (compStr p))

/-- `normalize_validate_path`, on the component list of the input path.
A leading `./` is inserted when the first component is `Normal`. -/
def normalize_validate_path (comps : List Utf8Component) :
    Except Unit NormalizedPathResult :=
  let mapped := comps.map mapComponent
  let ret0 : List Char :=
    match mapped.head? with
    | some (.ok (.normal _)) => ".".data
    | _ => []
  normLoop mapped false ret0

/-- `normalize_validate_path` applied to a path string. -/
def normalizeStr (s : List Char) : Except Unit NormalizedPathResult :=
  normalize_validate_path (parseComponents s)

example : normalizeStr "/usr/bin/blah".data = .ok (.Normal "./usr/bin/blah".data) := rfl
example : normalizeStr "usr/bin/blah".data = .ok (.Normal "./usr/bin/blah".data) := rfl
example : normalizeStr "usr///share/.//blah".data = .ok (.Normal "./usr/share/blah".data) := rfl
example : normalizeStr "./".data = .ok (.Normal ".".data) := rfl
example : normalizeStr "/boot/vmlinuz".data = .ok (.Filtered "boot".data) := rfl
example : normalizeStr "var/lib/blah".data = .ok (.Filtered "var".data) := rfl
example : normalizeStr "./var/lib/blah".data = .ok (.Filtered "var".data) := rfl
example : normalizeStr "usr/foo/../../bar".data = .error () := rfl
example : normalizeStr "/etc/foo".data = .ok (.Normal "./usr/etc/foo".data) := rfl
example : normalizeStr "etc/foo".data = .ok (.Normal "./usr/etc/foo".data) := rfl
example : normalizeStr "var/../x".data = .ok (.Filtered "var".data) := rfl

/-! ## Tar entries and `filter_tar` (src/tar/write.rs)

The tar archive is modelled as a list of parsed entries.  An entry carries
its header (entry type, mtime, link name), its path and its body bytes.
The long-name (`entry.link_name()`) and header (`header.link_name()`)
accessors are modelled by the same field: link names are assumed to fit
the header, which is exact for all paths short enough to need no GNU
long-name extension entries. -/

inductive EntryType where
  | regular : EntryType
  | link : EntryType
  | symlink : EntryType
  | directory : EntryType
  | other : EntryType
deriving DecidableEq, Repr

structure TarHeader where
  entryType : EntryType
  mtime : Nat
  linkName : Option (List Char)
deriving DecidableEq, Repr

structure TarEntry where
  header : TarHeader
  path : List Char
  body : List Nat
deriving DecidableEq, Repr

/-- An entry written to the output `tar::Builder`: either `append_data`
(header, path, content) or `append_link` (header, path, link target);
`append_link` stores the target into the written header's link name. -/
inductive OutEntry where
  | data (header : TarHeader) (path : List Char) (content : List Nat) : OutEntry
  | link (header : TarHeader) (path : List Char) (target : List Char) : OutEntry
deriving DecidableEq, Repr

/-- Modelled from the spec: `crate::tar::REPO_PREFIX`, the sysroot object
prefix "under which the internal commit store's object files live when
materialized inside a tar stream"; its defining module is not among the
given sources.  The spec names it the sysroot repository prefix. -/
def repoPrefixPath : List Char := "sysroot/ostree/repo".data

/-- `path.strip_prefix(REPO_PREFIX).is_ok()`: component-wise prefix test,
as `camino::Utf8Path::strip_prefix` compares component sequences. -/
def underRepo (p : List Char) : Bool :=
  (parseComponents repoPrefixPath).isPrefixOf (parseComponents p)

/-- Association-list model of `HashMap` insert: replace the value of an
existing key in place, otherwise append the binding. -/
def insertReplace {α : Type} [DecidableEq α] {β : Type} :
    List (α × β) → α → β → List (α × β)
  | [], k, v => [(k, v)]
  | (k', v') :: rest, k, v =>
    if k' = k then (k, v) :: rest else (k', v') :: insertReplace rest k v

/-- `HashMap::get`/`contains_key` on the association-list model. -/
def lookupKey {α : Type} [DecidableEq α] {β : Type} :
    List (α × β) → α → Option β
  | [], _ => none
  | (k', v') :: rest, k => if k' = k then some v' else lookupKey rest k

/-- `HashMap::remove`: drop the binding of a key. -/
def removeKey {α : Type} [DecidableEq α] {β : Type} :
    List (α × β) → α → List (α × β)
  | [], _ => []
  | (k', v') :: rest, k =>
    if k' = k then rest else (k', v') :: removeKey rest k

/-- The `BTreeMap<String, u32>` tally bump in `filter_tar`'s `Filtered`
arm: increment an existing count or insert `1`. -/
def bumpTally : List (List Char × Nat) → List Char → List (List Char × Nat)
  | [], k => [(k, 1)]
  | (k', v') :: rest, k =>
    if k' = k then (k', v' + 1) :: rest else (k', v') :: bumpTally rest k

/-- The mutable state of the `filter_tar` pass: the emitted entries, the
filtered-prefix tally, `changed_sysroot_objects` (path → cloned header and
spilled body) and `new_sysroot_link_targets` (target → relocated path). -/
structure FilterState where
  dest : List OutEntry
  filtered : List (List Char × Nat)
  changed : List (List Char × (TarHeader × List Nat))
  newTargets : List (List Char × List Char)
deriving DecidableEq, Repr

def FilterState.initial : FilterState := ⟨[], [], [], []⟩

/-- `copy_entry`: links and symlinks are re-appended as links using the
entry's link name (error when absent), everything else as data. -/
def copy_entry (e : TarEntry) (path : List Char) (st : FilterState) :
    Except Unit FilterState :=
  match e.header.entryType with
  | .link =>
    match e.header.linkName with
    | none => .error ()
    | some target =>
      .ok { st with dest := st.dest ++
        [.link { e.header with linkName := some target } path target] }
  | .symlink =>
    match e.header.linkName with
    | none => .error ()
    | some target =>
      .ok { st with dest := st.dest ++
        [.link { e.header with linkName := some target } path target] }
  | _ => .ok { st with dest := st.dest ++ [.data e.header path e.body] }

/-- The general (non-sysroot) arm of the `filter_tar` loop body: normalize
the path, tally `Filtered` prefixes, else copy the entry at the
normalized path. -/
def filterTarGeneral (st : FilterState) (e : TarEntry) :
    Except Unit FilterState :=
  match normalize_validate_path (parseComponents e.path) with
  | .error er => .error er
  | .ok (.Filtered top) => .ok { st with filtered := bumpTally st.filtered top }
  | .ok (.Normal p) => copy_entry e p st

/-- One iteration of the `filter_tar` entry loop. -/
def filterTarStep (st : FilterState) (e : TarEntry) : Except Unit FilterState :=
  let header := e.header
  let is_modified := header.mtime > 0
  let is_regular := header.entryType = .regular
  if underRepo e.path then
    if is_modified ∧ is_regular then
      -- spill the body, cache header and data under the entry's path
      .ok { st with changed := insertReplace st.changed e.path (header, e.body) }
    else
      filterTarGeneral st e
  else if header.entryType = .link ∧ is_modified then
    match header.linkName with
    | none => .error ()   -- "Invalid empty hardlink"
    | some target =>
      if underRepo target then
        match lookupKey st.changed target with
        | some (hd, data) =>
          -- make this entry the canonical one for the spilled file
          .ok { st with
            dest := st.dest ++ [.data hd e.path data],
            changed := removeKey st.changed target,
            newTargets := insertReplace st.newTargets target e.path }
        | none =>
          match lookupKey st.newTargets target with
          | some realTarget =>
            .ok { st with dest := st.dest ++
              [.link { header with linkName := some realTarget } e.path realTarget] }
          | none => .ok st   -- unhandled modified link: dropped
      else
        filterTarGeneral st e
  else
    filterTarGeneral st e

/-- `filter_tar`: fold the loop body over the input entries. -/
def filter_tar (entries : List TarEntry) : Except Unit FilterState :=
  entries.foldlM filterTarStep FilterState.initial

/-! ## Facts about path parsing and normalization (claim C3) -/

lemma splitOnSlash_ne_nil (cs : List Char) : splitOnSlash cs ≠ [] := by
  induction cs with
  | nil => simp [splitOnSlash]
  | cons c r ih =>
    unfold splitOnSlash
    split
    · simp
    · cases h : splitOnSlash r with
      | nil => exact absurd h ih
      | cons a t => simp

lemma splitOnSlash_no_slash (cs : List Char) :
    ∀ p ∈ splitOnSlash cs, '/' ∉ p := by
  induction cs with
  | nil => intro p hp; simp [splitOnSlash] at hp; simp [hp]
  | cons c r ih =>
    intro p hp
    unfold splitOnSlash at hp
    by_cases hc : c = '/'
    · rw [if_pos hc] at hp
      rcases List.mem_cons.mp hp with h | h
      · simp [h]
      · exact ih p h
    · rw [if_neg hc] at hp
      cases h : splitOnSlash r with
      | nil => exact absurd h (splitOnSlash_ne_nil r)
      | cons a t =>
        rw [h] at hp
        rcases List.mem_cons.mp hp with h' | h' <;> subst_vars
        · intro hmem
          rcases List.mem_cons.mp hmem with h'' | h''
          · exact hc h''.symm
          · exact ih a (h ▸ List.mem_cons_self a t) h''
        · exact ih p (h ▸ List.mem_cons_of_mem a h')

lemma parseBody_mem (cs : List Char) (c : Utf8Component) (h : c ∈ parseBody cs) :
    c = .parentDir ∨ ∃ n, c = .normal n ∧ '/' ∉ n := by
  unfold parseBody at h
  rw [List.mem_map] at h
  obtain ⟨p, hp, hc⟩ := h
  rw [List.mem_filter] at hp
  obtain ⟨hp1, _⟩ := hp
  by_cases hdd : p = "..".data
  · left; rw [← hc]; simp [hdd]
  · right
    exact ⟨p, by rw [← hc]; simp [hdd], splitOnSlash_no_slash cs p hp1⟩

lemma parseComponents_shape (cs : List Char) :
    parseComponents cs = parseBody cs ∨
    parseComponents cs = .rootDir :: parseBody cs ∨
    parseComponents cs = .curDir :: parseBody cs := by
  unfold parseComponents
  split
  · right; left; rfl
  · split
    · right; right; rfl
    · left; rfl

/-- A component that is normal or the current-dir component. -/
def isNormalOrCur : Utf8Component → Bool
  | .curDir => true
  | .normal _ => true
  | _ => false

/-- The first `Normal` component of a component list, if any. -/
def firstNormalComponent (l : List Utf8Component) : Option (List Char) :=
  l.findSome? fun c =>
    match c with
    | .normal s => some s
    | _ => none

lemma normLoop_found_append (l : List (Except Unit Utf8Component)) :
    ∀ ret : List Char, ret ≠ [] →
    (∀ x ∈ l, ∃ c, x = .ok c ∧ (compStr c).head? ≠ some '/') →
    ∃ rest, normLoop l true ret = .ok (.Normal (ret ++ rest)) ∧
      (rest = [] ∨ rest.head? = some '/') := by
  induction l with
  | nil => intro ret _ _; exact ⟨[], by simp [normLoop], Or.inl rfl⟩
  | cons x xs ih =>
    intro ret hret hall
    obtain ⟨c, hx, hslash⟩ := hall x (List.mem_cons_self x xs)
    subst hx
    have hpp : pathPush ret (compStr c) = ret ++ '/' :: compStr c := by
      unfold pathPush
      rw [if_neg hslash, if_neg hret]
    have hstep : normLoop (.ok c :: xs) true ret
        = normLoop xs true (pathPush ret (compStr c)) := by
      simp [normLoop]
    obtain ⟨rest, hr, _⟩ := ih (pathPush ret (compStr c))
      (by rw [hpp]; simp)
      (fun y hy => hall y (List.mem_cons_of_mem _ hy))
    refine ⟨'/' :: compStr c ++ rest, ?_, Or.inr rfl⟩
    rw [hstep, hr, hpp]
    simp

lemma normLoop_error_no_normal (l : List (Except Unit Utf8Component)) :
    ∀ (ff : Bool) (ret r : List Char), .error () ∈ l →
    normLoop l ff ret ≠ .ok (.Normal r) := by
  induction l with
  | nil => intro ff ret r h; simp at h
  | cons x xs ih =>
    intro ff ret r hmem
    cases x with
    | error e => simp [normLoop]
    | ok part =>
      have hmem' : Except.error () ∈ xs := by
        rcases List.mem_cons.mp hmem with h | h
        · exact absurd h (by simp)
        · exact h
      cases ff with
      | true =>
        have hstep : normLoop (.ok part :: xs) true ret
            = normLoop xs true (pathPush ret (compStr part)) := by simp [normLoop]
        rw [hstep]
        exact ih true _ r hmem'
      | false =>
        cases part with
        | normal s =>
          have hstep : normLoop (.ok (.normal s) :: xs) false ret =
              if s = "usr".data then normLoop xs true (pathPush ret s)
              else if s = "etc".data then
                normLoop xs true (pathPush ret "usr/etc".data)
              else .ok (.Filtered s) := by
            simp [normLoop]
          rw [hstep]
          by_cases h1 : s = "usr".data
          · rw [if_pos h1]; exact ih true _ r hmem'
          · rw [if_neg h1]
            by_cases h2 : s = "etc".data
            · rw [if_pos h2]; exact ih true _ r hmem'
            · rw [if_neg h2]; simp
        | rootDir =>
          have hstep : normLoop (.ok .rootDir :: xs) false ret
              = normLoop xs false (pathPush ret (compStr .rootDir)) := by
            simp [normLoop]
          rw [hstep]
          exact ih false _ r hmem'
        | curDir =>
          have hstep : normLoop (.ok .curDir :: xs) false ret
              = normLoop xs false (pathPush ret (compStr .curDir)) := by
            simp [normLoop]
          rw [hstep]
          exact ih false _ r hmem'
        | parentDir =>
          have hstep : normLoop (.ok .parentDir :: xs) false ret
              = normLoop xs false (pathPush ret (compStr .parentDir)) := by
            simp [normLoop]
          rw [hstep]
          exact ih false _ r hmem'

lemma map_mapComponent_normals (t : List Utf8Component)
    (h : ∀ c ∈ t, ∃ n, c = .normal n ∧ '/' ∉ n) :
    ∀ x ∈ t.map mapComponent, ∃ c, x = .ok c ∧ (compStr c).head? ≠ some '/' := by
  intro x hx
  rw [List.mem_map] at hx
  obtain ⟨c, hc, hxc⟩ := hx
  obtain ⟨n, hn, hns⟩ := h c hc
  subst hn
  refine ⟨.normal n, by rw [← hxc]; rfl, ?_⟩
  intro hcontra
  cases n with
  | nil => simp [compStr] at hcontra
  | cons a r =>
    simp [compStr] at hcontra
    exact hns (hcontra ▸ List.mem_cons_self a r)

lemma normLoop_usr (t : List Utf8Component)
    (h : ∀ c ∈ t, ∃ n, c = .normal n ∧ '/' ∉ n) :
    ∃ rest,
      normLoop ((Utf8Component.normal "usr".data :: t).map mapComponent) false ".".data
        = .ok (.Normal ("./usr".data ++ rest)) ∧
      (rest = [] ∨ rest.head? = some '/') := by
  have hstep :
      normLoop ((Utf8Component.normal "usr".data :: t).map mapComponent) false ".".data
        = normLoop (t.map mapComponent) true "./usr".data := rfl
  rw [hstep]
  exact normLoop_found_append _ _ (by decide) (map_mapComponent_normals t h)

/-- C3 counterexample: the path `var/../x` contains a parent-dir
component, yet `normalize_validate_path` does not fail on it — the first
normal component `var` is filtered before the `..` is ever examined. -/
theorem normalize_parent_dir_counterexample :
    Utf8Component.parentDir ∈ parseComponents "var/../x".data ∧
    normalizeStr "var/../x".data = .ok (.Filtered "var".data) :=
  ⟨by decide, rfl⟩

/-- C3 (amended): for every path whose components are all normal or
current-dir and whose first normal component is `usr`, the result is
`Normal` and starts with `./usr` followed by nothing or a separator;
`normalize("/etc/foo")` and `normalize("etc/foo")` are both
`Normal("./usr/etc/foo")`; and a path containing a parent-dir component
never yields `Normal` — it yields failure unless an earlier first normal
component outside `usr`/`etc` already filtered the path. -/
theorem normalize_validate_path_props :
    (∀ s : List Char,
      (∀ c ∈ parseComponents s, isNormalOrCur c = true) →
      firstNormalComponent (parseComponents s) = some "usr".data →
      ∃ rest, normalizeStr s = .ok (.Normal ("./usr".data ++ rest)) ∧
        (rest = [] ∨ rest.head? = some '/')) ∧
    normalizeStr "/etc/foo".data = .ok (.Normal "./usr/etc/foo".data) ∧
    normalizeStr "etc/foo".data = .ok (.Normal "./usr/etc/foo".data) ∧
    (∀ (s r : List Char), .parentDir ∈ parseComponents s →
      normalizeStr s ≠ .ok (.Normal r)) := by
  refine ⟨?_, rfl, rfl, ?_⟩
  · intro s hall hfirst
    have hallBody : ∀ c ∈ parseBody s, ∃ n, c = .normal n ∧ '/' ∉ n := by
      intro c hc
      rcases parseBody_mem s c hc with h | h
      · exfalso
        have hmem : c ∈ parseComponents s := by
          rcases parseComponents_shape s with hs | hs | hs <;>
            rw [hs] <;> simp [hc]
        have := hall c hmem
        rw [h] at this
        simp [isNormalOrCur] at this
      · exact h
    rcases parseComponents_shape s with hs | hs | hs
    · -- parseComponents s = parseBody s
      cases hb : parseBody s with
      | nil => rw [hs, hb] at hfirst; simp [firstNormalComponent] at hfirst
      | cons c0 t =>
        obtain ⟨n0, hc0, _⟩ := hallBody c0 (hb ▸ List.mem_cons_self c0 t)
        subst hc0
        have hn0 : n0 = "usr".data := by
          rw [hs, hb] at hfirst
          simpa [firstNormalComponent] using hfirst
        subst hn0
        unfold normalizeStr normalize_validate_path
        rw [hs, hb]
        exact normLoop_usr t
          (fun c hc => hallBody c (hb ▸ List.mem_cons_of_mem _ hc))
    · -- parseComponents s = rootDir :: parseBody s: excluded by hall
      exfalso
      have := hall .rootDir (by rw [hs]; simp)
      simp [isNormalOrCur] at this
    · -- parseComponents s = curDir :: parseBody s
      cases hb : parseBody s with
      | nil =>
        rw [hs, hb] at hfirst
        simp [firstNormalComponent] at hfirst
      | cons c0 t =>
        obtain ⟨n0, hc0, _⟩ := hallBody c0 (hb ▸ List.mem_cons_self c0 t)
        subst hc0
        have hn0 : n0 = "usr".data := by
          rw [hs, hb] at hfirst
          simpa [firstNormalComponent] using hfirst
        subst hn0
        unfold normalizeStr normalize_validate_path
        rw [hs, hb]
        have hstep :
            normLoop ((Utf8Component.curDir :: Utf8Component.normal "usr".data :: t).map
              mapComponent) false
              (match ((Utf8Component.curDir :: Utf8Component.normal "usr".data :: t).map
                mapComponent).head? with
               | some (.ok (.normal _)) => ".".data
               | _ => []) =
            normLoop ((Utf8Component.normal "usr".data :: t).map mapComponent)
              false ".".data := rfl
        rw [hstep]
        exact normLoop_usr t
          (fun c hc => hallBody c (hb ▸ List.mem_cons_of_mem _ hc))
  · intro s r hmem
    unfold normalizeStr normalize_validate_path
    apply normLoop_error_no_normal
    have : mapComponent .parentDir = .error () := rfl
    exact this ▸ List.mem_map_of_mem mapComponent hmem

/-- Witness for C3 (amended) at the concrete input `usr/bin`. -/
theorem normalize_validate_path_props_witness :
    (∀ c ∈ parseComponents "usr/bin".data, isNormalOrCur c = true) ∧
    firstNormalComponent (parseComponents "usr/bin".data) = some "usr".data ∧
    ∃ rest, normalizeStr "usr/bin".data = .ok (.Normal ("./usr".data ++ rest)) ∧
      (rest = [] ∨ rest.head? = some '/') :=
  ⟨by decide, by decide,
    normalize_validate_path_props.1 "usr/bin".data (by decide) (by decide)⟩

/-! ## Facts about `filter_tar` (claims C1, C2) -/

lemma insertReplace_values {α : Type} [DecidableEq α] {β : Type}
    (P : β → Prop) (m : List (α × β)) (k : α) (v : β)
    (hm : ∀ kv ∈ m, P kv.2) (hv : P v) :
    ∀ kv ∈ insertReplace m k v, P kv.2 := by
  induction m with
  | nil => intro kv hkv; simp [insertReplace] at hkv; rw [hkv]; exact hv
  | cons a rest ih =>
    intro kv hkv
    unfold insertReplace at hkv
    by_cases hk : a.1 = k
    · rw [if_pos hk] at hkv
      rcases List.mem_cons.mp hkv with h | h
      · rw [h]; exact hv
      · exact hm kv (List.mem_cons_of_mem a h)
    · rw [if_neg hk] at hkv
      rcases List.mem_cons.mp hkv with h | h
      · rw [h]; exact hm a (List.mem_cons_self a rest)
      · exact ih (fun kv hkv => hm kv (List.mem_cons_of_mem a hkv)) kv h

lemma lookupKey_mem {α : Type} [DecidableEq α] {β : Type}
    (m : List (α × β)) (k : α) (v : β) (h : lookupKey m k = some v) :
    (k, v) ∈ m := by
  induction m with
  | nil => simp [lookupKey] at h
  | cons a rest ih =>
    unfold lookupKey at h
    by_cases hk : a.1 = k
    · rw [if_pos hk] at h
      injection h with h
      have ha : a = (k, v) := by
        obtain ⟨a1, a2⟩ := a
        simp at hk h
        rw [hk, h]
      rw [ha]
      exact List.mem_cons_self _ _
    · rw [if_neg hk] at h
      exact List.mem_cons_of_mem a (ih h)

lemma take_two_append (l x : List Char) (h : l.take 2 = "./".data) :
    (l ++ x).take 2 = "./".data := by
  have hlen : 2 ≤ l.length := by
    have := congrArg List.length h
    simp at this
    omega
  rw [List.take_append_eq_append_take]
  have h2 : 2 - l.length = 0 := by omega
  rw [h2]
  simp [h]

/-- Every `Normal` result of the normalizer loop keeps the `.`/`./` shape
of its accumulator, provided no pushed piece is absolute. -/
lemma normLoop_dotted (l : List (Except Unit Utf8Component)) :
    ∀ (ret p : List Char) (ff : Bool),
    (∀ x ∈ l, x = .error () ∨ ∃ c, x = .ok c ∧ (compStr c).head? ≠ some '/') →
    (ret = ".".data ∨ ret.take 2 = "./".data) →
    normLoop l ff ret = .ok (.Normal p) →
    (p = ".".data ∨ p.take 2 = "./".data) := by
  induction l with
  | nil =>
    intro ret p ff _ hret h
    simp [normLoop] at h
    rw [← h]
    exact hret
  | cons x xs ih =>
    intro ret p ff hall hret h
    rcases hall x (List.mem_cons_self x xs) with hx | ⟨c, hx, hslash⟩
    · subst hx; simp [normLoop] at h
    · subst hx
      have hretne : ret ≠ [] := by
        rcases hret with h' | h'
        · rw [h']; simp
        · intro hnil
          rw [hnil] at h'
          simp at h'
      have hpp : pathPush ret (compStr c) = ret ++ '/' :: compStr c := by
        unfold pathPush
        rw [if_neg hslash, if_neg hretne]
      have hret' : ∀ piece : List Char,
          (ret ++ '/' :: piece = ".".data ∨ (ret ++ '/' :: piece).take 2 = "./".data) := by
        intro piece
        right
        rcases hret with h' | h'
        · rw [h']; rfl
        · exact take_two_append ret _ h'
      have hall' := fun y hy => hall y (List.mem_cons_of_mem _ hy)
      cases ff with
      | true =>
        have hstep : normLoop (.ok c :: xs) true ret
            = normLoop xs true (pathPush ret (compStr c)) := by simp [normLoop]
        rw [hstep, hpp] at h
        exact ih _ p true hall' (hret' _) h
      | false =>
        cases c with
        | normal s =>
          have hstep : normLoop (.ok (.normal s) :: xs) false ret =
              if s = "usr".data then normLoop xs true (pathPush ret s)
              else if s = "etc".data then
                normLoop xs true (pathPush ret "usr/etc".data)
              else .ok (.Filtered s) := by
            simp [normLoop]
          rw [hstep] at h
          by_cases h1 : s = "usr".data
          · rw [if_pos h1] at h
            have : pathPush ret s = ret ++ '/' :: s := by
              unfold pathPush
              rw [if_neg (by simpa [compStr] using hslash), if_neg hretne]
            rw [this] at h
            exact ih _ p true hall' (hret' _) h
          · rw [if_neg h1] at h
            by_cases h2 : s = "etc".data
            · rw [if_pos h2] at h
              have : pathPush ret "usr/etc".data = ret ++ '/' :: "usr/etc".data := by
                unfold pathPush
                rw [if_neg (by decide), if_neg hretne]
              rw [this] at h
              exact ih _ p true hall' (hret' _) h
            · rw [if_neg h2] at h
              simp at h
        | rootDir => exact absurd rfl hslash
        | curDir =>
          have hstep : normLoop (.ok .curDir :: xs) false ret
              = normLoop xs false (pathPush ret (compStr .curDir)) := by
            simp [normLoop]
          rw [hstep, hpp] at h
          exact ih _ p false hall' (hret' _) h
        | parentDir =>
          have hstep : normLoop (.ok .parentDir :: xs) false ret
              = normLoop xs false (pathPush ret (compStr .parentDir)) := by
            simp [normLoop]
          rw [hstep, hpp] at h
          exact ih _ p false hall' (hret' _) h

lemma parseComponents_mapped_ok (s : List Char) :
    ∀ x ∈ (parseComponents s).map mapComponent,
      x = .error () ∨ ∃ c, x = .ok c ∧ (compStr c).head? ≠ some '/' := by
  intro x hx
  rw [List.mem_map] at hx
  obtain ⟨c, hc, hxc⟩ := hx
  cases c with
  | rootDir => right; exact ⟨.curDir, hxc.symm, by decide⟩
  | curDir => right; exact ⟨.curDir, hxc.symm, by decide⟩
  | parentDir => left; exact hxc.symm
  | normal n =>
    have hbody : Utf8Component.normal n ∈ parseBody s := by
      rcases parseComponents_shape s with hs | hs | hs <;> rw [hs] at hc
      · exact hc
      · rcases List.mem_cons.mp hc with h | h
        · exact absurd h (by simp)
        · exact h
      · rcases List.mem_cons.mp hc with h | h
        · exact absurd h (by simp)
        · exact h
    rcases parseBody_mem s _ hbody with h | ⟨n', hn', hslash⟩
    · exact absurd h (by simp)
    · right
      refine ⟨.normal n, hxc.symm, ?_⟩
      have hnn : n' = n := by injection hn' with h; exact h.symm
      subst hnn
      intro hcontra
      cases n' with
      | nil => simp [compStr] at hcontra
      | cons a r =>
        simp [compStr] at hcontra
        exact hslash (hcontra ▸ List.mem_cons_self a r)

lemma normalize_normal_dotted (s p : List Char)
    (h : normalize_validate_path (parseComponents s) = .ok (.Normal p)) :
    p = [] ∨ p = ".".data ∨ p.take 2 = "./".data := by
  have hall := parseComponents_mapped_ok s
  unfold normalize_validate_path at h
  cases hc : parseComponents s with
  | nil =>
    rw [hc] at h
    simp [normLoop] at h
    left; exact h
  | cons c rest =>
    rw [hc] at h hall
    cases c with
    | normal n =>
      right
      exact normLoop_dotted _ _ p false hall (Or.inl rfl) h
    | curDir =>
      right
      have h' : normLoop (rest.map mapComponent) false ".".data
          = .ok (.Normal p) := h
      exact normLoop_dotted _ _ p false
        (fun y hy => hall y (List.mem_cons_of_mem _ hy)) (Or.inl rfl) h'
    | rootDir =>
      right
      have h' : normLoop (rest.map mapComponent) false ".".data
          = .ok (.Normal p) := h
      exact normLoop_dotted _ _ p false
        (fun y hy => hall y (List.mem_cons_of_mem _ hy)) (Or.inl rfl) h'
    | parentDir =>
      have h' : (Except.error () : Except Unit NormalizedPathResult)
          = .ok (.Normal p) := h
      exact absurd h' (by simp)

lemma underRepo_false_of_dotted (p : List Char)
    (h : p = [] ∨ p = ".".data ∨ p.take 2 = "./".data) :
    underRepo p = false := by
  rcases h with h | h | h
  · rw [h]; decide
  · rw [h]; decide
  · match p, h with
    | a :: b :: rest, h =>
      have ha : a = '.' := by
        have := congrArg (fun l => l.head?) h
        simpa using this
      have hb : b = '/' := by
        have := congrArg (fun l => l.get? 1) h
        simpa using this
      subst ha; subst hb
      have hpc : parseComponents ('.' :: '/' :: rest)
          = .curDir :: parseBody ('.' :: '/' :: rest) := by
        unfold parseComponents
        rw [if_neg (by simp), if_pos (by right; rfl)]
      unfold underRepo
      rw [hpc]
      rfl

lemma normalize_under_repo (p : List Char) (h : underRepo p = true) :
    normalize_validate_path (parseComponents p) = .ok (.Filtered "sysroot".data) := by
  unfold underRepo at h
  rw [List.isPrefixOf_iff_prefix] at h
  obtain ⟨t, ht⟩ := h
  have hrepo : parseComponents repoPrefixPath
      = [.normal "sysroot".data, .normal "ostree".data, .normal "repo".data] := rfl
  rw [hrepo] at ht
  have hshape : parseComponents p
      = Utf8Component.normal "sysroot".data
        :: (Utf8Component.normal "ostree".data :: Utf8Component.normal "repo".data :: t) := by
    rw [← ht]; rfl
  rw [hshape]
  rfl

/-- No reference into the sysroot object store: the entry's path is not
under the prefix, and a hardlink marked modified does not target it. -/
def noSysrootRef : OutEntry → Prop
  | .data _ p _ => underRepo p = false
  | .link hd p t =>
    underRepo p = false ∧
      (hd.entryType = .link → hd.mtime > 0 → underRepo t = false)

/-- Invariant of the `filter_tar` pass: every emitted entry is clean and
every recorded relocation target lies outside the sysroot prefix. -/
def stInv (st : FilterState) : Prop :=
  (∀ o ∈ st.dest, noSysrootRef o) ∧ ∀ kv ∈ st.newTargets, underRepo kv.2 = false

lemma copy_entry_inv (e : TarEntry) (path : List Char) (st st' : FilterState)
    (hst : stInv st) (hpath : underRepo path = false)
    (hlink : e.header.entryType = .link → e.header.mtime > 0 →
      ∀ t, e.header.linkName = some t → underRepo t = false)
    (h : copy_entry e path st = .ok st') : stInv st' := by
  unfold copy_entry at h
  cases htype : e.header.entryType <;> rw [htype] at h
  case link =>
    cases hln : e.header.linkName <;> rw [hln] at h
    · exact absurd h (by simp)
    case some target =>
      have hm := Except.ok.inj h
      subst hm
      refine ⟨?_, hst.2⟩
      intro o ho
      rcases List.mem_append.mp ho with hmem | hmem
      · exact hst.1 o hmem
      · rw [List.mem_singleton.mp hmem]
        exact ⟨hpath, fun h1 h2 => hlink (by simpa using h1) h2 target hln⟩
  case symlink =>
    cases hln : e.header.linkName <;> rw [hln] at h
    · exact absurd h (by simp)
    case some target =>
      have hm := Except.ok.inj h
      subst hm
      refine ⟨?_, hst.2⟩
      intro o ho
      rcases List.mem_append.mp ho with hmem | hmem
      · exact hst.1 o hmem
      · rw [List.mem_singleton.mp hmem]
        refine ⟨hpath, fun h1 _ => ?_⟩
        simp [htype] at h1
  all_goals
    have hm := Except.ok.inj h
    subst hm
    refine ⟨?_, hst.2⟩
    intro o ho
    rcases List.mem_append.mp ho with hmem | hmem
    · exact hst.1 o hmem
    · rw [List.mem_singleton.mp hmem]
      exact hpath

lemma filterTarGeneral_inv (st : FilterState) (e : TarEntry) (st' : FilterState)
    (hst : stInv st)
    (hlink : e.header.entryType = .link → e.header.mtime > 0 →
      ∀ t, e.header.linkName = some t → underRepo t = false)
    (h : filterTarGeneral st e = .ok st') : stInv st' := by
  unfold filterTarGeneral at h
  cases hn : normalize_validate_path (parseComponents e.path) <;> rw [hn] at h
  · exact absurd h (by simp)
  case ok res =>
    cases res with
    | Filtered top =>
      have hm := Except.ok.inj h
      subst hm
      exact ⟨hst.1, hst.2⟩
    | Normal p =>
      exact copy_entry_inv e p st st' hst
        (underRepo_false_of_dotted p (normalize_normal_dotted e.path p hn)) hlink h

lemma filterTarStep_inv (st : FilterState) (e : TarEntry) (st' : FilterState)
    (hst : stInv st) (h : filterTarStep st e = .ok st') : stInv st' := by
  unfold filterTarStep at h
  by_cases hur : underRepo e.path = true
  · rw [if_pos (by simpa using hur)] at h
    by_cases hmr : e.header.mtime > 0 ∧ e.header.entryType = .regular
    · rw [if_pos hmr] at h
      have hm := Except.ok.inj h
      subst hm
      exact ⟨hst.1, hst.2⟩
    · rw [if_neg hmr] at h
      unfold filterTarGeneral at h
      rw [normalize_under_repo e.path hur] at h
      have hm := Except.ok.inj h
      subst hm
      exact ⟨hst.1, hst.2⟩
  · rw [if_neg (by simpa using hur)] at h
    have hurF : underRepo e.path = false := by
      cases hh : underRepo e.path
      · rfl
      · exact absurd hh hur
    by_cases hlm : e.header.entryType = .link ∧ e.header.mtime > 0
    · rw [if_pos hlm] at h
      cases hln : e.header.linkName with
      | none =>
        rw [hln] at h
        exact absurd h (by simp)
      | some target =>
        rw [hln] at h
        have h2 : (if underRepo target = true then
            (match lookupKey st.changed target with
             | some (hd, data) =>
               Except.ok { st with
                 dest := st.dest ++ [OutEntry.data hd e.path data],
                 changed := removeKey st.changed target,
                 newTargets := insertReplace st.newTargets target e.path }
             | none =>
               match lookupKey st.newTargets target with
               | some realTarget =>
                 Except.ok { st with dest := st.dest ++
                   [OutEntry.link { e.header with linkName := some realTarget }
                     e.path realTarget] }
               | none => Except.ok st)
          else filterTarGeneral st e) = .ok st' := h
        clear h
        by_cases hut : underRepo target = true
        · rw [if_pos hut] at h2
          cases hlk : lookupKey st.changed target with
          | some hdData =>
            rw [hlk] at h2
            obtain ⟨hd, data⟩ := hdData
            have hm := Except.ok.inj h2
            subst hm
            constructor
            · intro o ho
              rcases List.mem_append.mp ho with hmem | hmem
              · exact hst.1 o hmem
              · rw [List.mem_singleton.mp hmem]
                exact hurF
            · exact insertReplace_values (fun v => underRepo v = false)
                st.newTargets target e.path hst.2 hurF
          | none =>
            rw [hlk] at h2
            cases hlk2 : lookupKey st.newTargets target with
            | none =>
              rw [hlk2] at h2
              have hm := Except.ok.inj h2
              subst hm
              exact ⟨hst.1, hst.2⟩
            | some realTarget =>
              rw [hlk2] at h2
              have hm := Except.ok.inj h2
              subst hm
              constructor
              · intro o ho
                rcases List.mem_append.mp ho with hmem | hmem
                · exact hst.1 o hmem
                · rw [List.mem_singleton.mp hmem]
                  refine ⟨hurF, fun _ _ => ?_⟩
                  exact hst.2 (target, realTarget)
                    (lookupKey_mem st.newTargets target realTarget hlk2)
              · exact hst.2
        · rw [if_neg hut] at h2
          refine filterTarGeneral_inv st e st' hst ?_ h2
          intro _ _ t ht
          rw [hln] at ht
          have htt : t = target := by injection ht with ht; exact ht.symm
          subst htt
          simp only [Bool.not_eq_true] at hut
          exact hut
    · rw [if_neg hlm] at h
      refine filterTarGeneral_inv st e st' hst ?_ h
      intro h1 h2 t _
      exact absurd ⟨h1, h2⟩ hlm

lemma filter_tar_fold_inv (l : List TarEntry) :
    ∀ (st st' : FilterState), stInv st →
    List.foldlM filterTarStep st l = .ok st' → stInv st' := by
  induction l with
  | nil =>
    intro st st' hst h
    have h' : (Except.ok st : Except Unit FilterState) = .ok st' := h
    have hm := Except.ok.inj h'
    subst hm
    exact hst
  | cons e rest ih =>
    intro st st' hst h
    rw [List.foldlM_cons] at h
    cases hstep : filterTarStep st e <;> rw [hstep] at h
    · exact absurd (show (Except.error _ : Except Unit FilterState) = .ok st' from h) (by simp)
    case ok s1 =>
      have h' : List.foldlM filterTarStep s1 rest = .ok st' := h
      exact ih s1 st' (filterTarStep_inv st e s1 hst hstep) h'

/-- The sysroot object path used in the C1 scenarios. -/
def sysObjPath : List Char := "sysroot/ostree/repo/objects/aa".data

/-- Header of an unmodified (mtime 0) hardlink into the sysroot prefix. -/
def coldLinkHeader : TarHeader := ⟨.link, 0, some sysObjPath⟩

/-- An unmodified hardlink entry at `usr/bin/evil` targeting the sysroot
object store. -/
def coldLinkEntry : TarEntry := ⟨coldLinkHeader, "usr/bin/evil".data, []⟩

/-- C1 counterexample: a hardlink with mtime `0` (hence not "modified")
whose target lies under the sysroot object-store prefix skips the sysroot
link rewriting and is emitted by the general arm with its target intact. -/
theorem filter_tar_sysroot_target_counterexample :
    filter_tar [coldLinkEntry] =
      .ok ⟨[.link coldLinkHeader "./usr/bin/evil".data sysObjPath], [], [], []⟩ ∧
    underRepo sysObjPath = true :=
  ⟨rfl, by decide⟩

/-- C1 (amended): for every input, every entry emitted by `filter_tar`
has a path outside the sysroot object-store prefix, and every emitted
hardlink that is marked modified (positive mtime) has a link target
outside that prefix.  (An emitted hardlink with mtime 0 can still carry a
target under the prefix, as the counterexample shows.) -/
theorem filter_tar_no_sysroot_refs (entries : List TarEntry) (st : FilterState)
    (h : filter_tar entries = .ok st) : ∀ o ∈ st.dest, noSysrootRef o :=
  (filter_tar_fold_inv entries FilterState.initial st
    ⟨fun o ho => absurd ho (by simp [FilterState.initial]),
     fun kv hkv => absurd hkv (by simp [FilterState.initial])⟩ h).1

/-- A modified regular file entry under the sysroot object prefix. -/
def spillEntry : TarEntry := ⟨⟨.regular, 42, none⟩, sysObjPath, [7, 8]⟩

/-- First modified hardlink to the spilled sysroot object. -/
def firstLinkEntry : TarEntry :=
  ⟨⟨.link, 42, some sysObjPath⟩, "usr/bin/first".data, []⟩

/-- Second modified hardlink to the same sysroot object. -/
def secondLinkEntry : TarEntry :=
  ⟨⟨.link, 42, some sysObjPath⟩, "usr/bin/second".data, []⟩

/-- The output of the three-entry spill/relink run. -/
def spillRunResult : FilterState :=
  ⟨[.data ⟨.regular, 42, none⟩ "usr/bin/first".data [7, 8],
    .link ⟨.link, 42, some "usr/bin/first".data⟩ "usr/bin/second".data
      "usr/bin/first".data],
   [], [], [(sysObjPath, "usr/bin/first".data)]⟩

/-- Witness for C1 (amended): a run with a spilled sysroot object, its
canonicalizing hardlink and a second relinked hardlink. -/
theorem filter_tar_no_sysroot_refs_witness :
    filter_tar [spillEntry, firstLinkEntry, secondLinkEntry]
      = .ok spillRunResult ∧
    ∀ o ∈ spillRunResult.dest, noSysrootRef o :=
  ⟨rfl, filter_tar_no_sysroot_refs
    [spillEntry, firstLinkEntry, secondLinkEntry] spillRunResult rfl⟩

/-- C2: inside the `filter_tar` pass, a modified hardlink (the sysroot
link arm requires the entry itself to be marked modified and to live
outside the prefix) whose target lies under the sysroot prefix is
handled by the two lookaside tables: a pending spilled object makes this
entry the canonical data carrier, consuming the pending record and
recording `target → path`; an already-relocated target yields a hardlink
to the recorded first carrier path; a target in neither table drops the
entry. -/
theorem filter_tar_hardlink_relocation (st : FilterState) (e : TarEntry)
    (target : List Char)
    (htype : e.header.entryType = .link)
    (hmod : e.header.mtime > 0)
    (hln : e.header.linkName = some target)
    (hpath : underRepo e.path = false)
    (htarget : underRepo target = true) :
    (∀ hd body, lookupKey st.changed target = some (hd, body) →
      filterTarStep st e = .ok
        ⟨st.dest ++ [.data hd e.path body], st.filtered,
         removeKey st.changed target,
         insertReplace st.newTargets target e.path⟩) ∧
    (∀ realTarget, lookupKey st.changed target = none →
      lookupKey st.newTargets target = some realTarget →
      filterTarStep st e = .ok
        ⟨st.dest ++ [.link ⟨e.header.entryType, e.header.mtime,
           some realTarget⟩ e.path realTarget],
         st.filtered, st.changed, st.newTargets⟩) ∧
    (lookupKey st.changed target = none →
      lookupKey st.newTargets target = none →
      filterTarStep st e = .ok st) := by
  refine ⟨?_, ?_, ?_⟩
  · intro hd body hlk
    unfold filterTarStep
    rw [if_neg (by simp [hpath]), if_pos ⟨htype, hmod⟩, hln]
    simp only [htarget, if_pos, hlk]
  · intro realTarget hlk hlk2
    unfold filterTarStep
    rw [if_neg (by simp [hpath]), if_pos ⟨htype, hmod⟩, hln]
    simp only [htarget, if_pos, hlk, hlk2]
  · intro hlk hlk2
    unfold filterTarStep
    rw [if_neg (by simp [hpath]), if_pos ⟨htype, hmod⟩, hln]
    simp only [htarget, if_pos, hlk, hlk2]

/-- Witness for C2: the pending-table case at a concrete state. -/
theorem filter_tar_hardlink_relocation_witness :
    firstLinkEntry.header.entryType = .link ∧
    firstLinkEntry.header.mtime > 0 ∧
    underRepo firstLinkEntry.path = false ∧
    underRepo sysObjPath = true ∧
    lookupKey [(sysObjPath, ((⟨.regular, 42, none⟩ : TarHeader), [7, 8]))]
      sysObjPath = some (⟨.regular, 42, none⟩, [7, 8]) ∧
    filterTarStep ⟨[], [], [(sysObjPath, (⟨.regular, 42, none⟩, [7, 8]))], []⟩
        firstLinkEntry =
      .ok ⟨[.data ⟨.regular, 42, none⟩ "usr/bin/first".data [7, 8]], [],
           [], [(sysObjPath, "usr/bin/first".data)]⟩ :=
  ⟨rfl, by decide, by decide, by decide, rfl,
   (filter_tar_hardlink_relocation
      ⟨[], [], [(sysObjPath, (⟨.regular, 42, none⟩, [7, 8]))], []⟩
      firstLinkEntry sysObjPath rfl (by decide) rfl (by decide) (by decide)).1
     ⟨.regular, 42, none⟩ [7, 8] rfl⟩

/-! ## Container image references (src/container/mod.rs)

The reference grammar works on byte strings, modelled as `List Char`.
`anyhow` error payloads are abstracted: parsers return `Option`. -/

inductive Transport where
  | Registry : Transport
  | OciDir : Transport
  | OciArchive : Transport
  | ContainerStorage : Transport
deriving DecidableEq, Repr

structure ImageReference where
  transport : Transport
  name : List Char
deriving DecidableEq, Repr

inductive SignatureSource where
  | OstreeRemote (remote : List Char) : SignatureSource
  | ContainerPolicy : SignatureSource
  | ContainerPolicyAllowInsecure : SignatureSource
deriving DecidableEq, Repr

structure OstreeImageReference where
  sigverify : SignatureSource
  imgref : ImageReference
deriving DecidableEq, Repr

/-- `str::split_once(':')`: split at the first colon, if any. -/
def splitOnce : List Char → Option (List Char × List Char)
  | [] => none
  | c :: rest =>
    if c = ':' then some ([], rest)
    else
      match splitOnce rest with
      | some (a, b) => some (c :: a, b)
      | none => none

/-- `str::strip_prefix("//")`. -/
def stripSlashes : List Char → Option (List Char)
  | '/' :: '/' :: rest => some rest
  | _ => none

/-- `Transport::try_from(&str)`. -/
def Transport.tryFrom (value : List Char) : Option Transport :=
  if value = "registry".data ∨ value = "docker".data then some .Registry
  else if value = "oci".data then some .OciDir
  else if value = "oci-archive".data then some .OciArchive
  else if value = "containers-storage".data then some .ContainerStorage
  else none

/-- `ImageReference::try_from(&str)`. -/
def ImageReference.tryFrom (value : List Char) : Option ImageReference :=
  match splitOnce value with
  | none => none
  | some (transportName, name) =>
    match Transport.tryFrom transportName with
    | none => none
    | some transport =>
      if name = [] then none
      else if transportName = "docker".data then
        match stripSlashes name with
        | some n => some ⟨transport, n⟩
        | none => none
      else some ⟨transport, name⟩

/-- `OstreeImageReference::try_from(&str)`. -/
def OstreeImageReference.tryFrom (value : List Char) :
    Option OstreeImageReference :=
  match splitOnce value with
  | none => none
  | some (first, second) =>
    if first = "ostree-image-signed".data then
      (ImageReference.tryFrom second).map (⟨.ContainerPolicy, ·⟩)
    else if first = "ostree-unverified-image".data then
      (ImageReference.tryFrom second).map (⟨.ContainerPolicyAllowInsecure, ·⟩)
    else if first = "ostree-unverified-registry".data then
      (ImageReference.tryFrom ("registry:".data ++ second)).map
        (⟨.ContainerPolicyAllowInsecure, ·⟩)
    else if first = "ostree-remote-registry".data then
      match splitOnce second with
      | none => none
      | some (remote, rest) =>
        (ImageReference.tryFrom ("registry:".data ++ rest)).map
          (⟨.OstreeRemote remote, ·⟩)
    else if first = "ostree-remote-image".data then
      match splitOnce second with
      | none => none
      | some (remote, rest) =>
        (ImageReference.tryFrom rest).map (⟨.OstreeRemote remote, ·⟩)
    else none

/-- `Display for Transport` (`Registry` canonicalizes to `docker://`). -/
def Transport.toChars : Transport → List Char
  | .Registry => "docker://".data
  | .OciArchive => "oci-archive:".data
  | .OciDir => "oci:".data
  | .ContainerStorage => "containers-storage:".data

/-- `Display for ImageReference`. -/
def ImageReference.toChars (i : ImageReference) : List Char :=
  i.transport.toChars ++ i.name

/-- `Display for SignatureSource`. -/
def SignatureSource.toChars : SignatureSource → List Char
  | .OstreeRemote r => "ostree-remote-image:".data ++ r
  | .ContainerPolicy => "ostree-image-signed".data
  | .ContainerPolicyAllowInsecure => "ostree-unverified-image".data

/-- `Display for OstreeImageReference`. -/
def OstreeImageReference.toChars (x : OstreeImageReference) : List Char :=
  x.sigverify.toChars ++ ":".data ++ x.imgref.toChars

example :
    OstreeImageReference.tryFrom
      "ostree-remote-image:myremote:registry:quay.io/exampleos/blah".data =
    some ⟨.OstreeRemote "myremote".data, ⟨.Registry, "quay.io/exampleos/blah".data⟩⟩ := by
  decide

example :
    OstreeImageReference.tryFrom
      "ostree-remote-registry:myremote:quay.io/exampleos/blah".data =
    some ⟨.OstreeRemote "myremote".data, ⟨.Registry, "quay.io/exampleos/blah".data⟩⟩ := by
  decide

example :
    OstreeImageReference.toChars
      ⟨.OstreeRemote "myremote".data, ⟨.Registry, "quay.io/exampleos/blah".data⟩⟩ =
    "ostree-remote-image:myremote:docker://quay.io/exampleos/blah".data := by
  decide

example : ImageReference.tryFrom "oci:somedir".data = some ⟨.OciDir, "somedir".data⟩ := by
  decide

example : ImageReference.tryFrom "".data = none := by decide
example : ImageReference.tryFrom "registry:".data = none := by decide
example : ImageReference.tryFrom "docker:blah".data = none := by decide
example : ImageReference.tryFrom "foo:bar".data = none := by decide

/-! ## Round-trip facts for the reference grammar (claim C4) -/

lemma splitOnce_append (a b : List Char) (ha : ':' ∉ a) :
    splitOnce (a ++ ':' :: b) = some (a, b) := by
  induction a with
  | nil => simp [splitOnce]
  | cons c r ih =>
    have hc : c ≠ ':' := fun h => ha (h ▸ List.mem_cons_self c r)
    have hr : ':' ∉ r := fun h => ha (List.mem_cons_of_mem c h)
    simp only [List.cons_append]
    unfold splitOnce
    rw [if_neg hc, ih hr]

lemma imgref_roundtrip (i : ImageReference)
    (hn : i.transport = .Registry ∨ i.name ≠ []) :
    ImageReference.tryFrom i.toChars = some i := by
  obtain ⟨t, n⟩ := i
  cases t with
  | Registry =>
    have hshape : ImageReference.toChars ⟨.Registry, n⟩
        = "docker".data ++ ':' :: ('/' :: '/' :: n) := rfl
    rw [hshape]
    unfold ImageReference.tryFrom
    rw [splitOnce_append _ _ (by decide)]
    simp [Transport.tryFrom, stripSlashes]
  | OciDir =>
    have hname : n ≠ [] := by
      rcases hn with h | h
      · exact absurd h (by simp)
      · exact h
    have hshape : ImageReference.toChars ⟨.OciDir, n⟩
        = "oci".data ++ ':' :: n := rfl
    rw [hshape]
    unfold ImageReference.tryFrom
    rw [splitOnce_append _ _ (by decide)]
    simp [Transport.tryFrom, hname]
  | OciArchive =>
    have hname : n ≠ [] := by
      rcases hn with h | h
      · exact absurd h (by simp)
      · exact h
    have hshape : ImageReference.toChars ⟨.OciArchive, n⟩
        = "oci-archive".data ++ ':' :: n := rfl
    rw [hshape]
    unfold ImageReference.tryFrom
    rw [splitOnce_append _ _ (by decide)]
    simp [Transport.tryFrom, hname]
  | ContainerStorage =>
    have hname : n ≠ [] := by
      rcases hn with h | h
      · exact absurd h (by simp)
      · exact h
    have hshape : ImageReference.toChars ⟨.ContainerStorage, n⟩
        = "containers-storage".data ++ ':' :: n := rfl
    rw [hshape]
    unfold ImageReference.tryFrom
    rw [splitOnce_append _ _ (by decide)]
    simp [Transport.tryFrom, hname]

lemma tryFrom_signed (rest : List Char) :
    OstreeImageReference.tryFrom ("ostree-image-signed".data ++ ':' :: rest)
      = (ImageReference.tryFrom rest).map (⟨.ContainerPolicy, ·⟩) := by
  unfold OstreeImageReference.tryFrom
  rw [splitOnce_append _ _ (by decide)]
  rfl

lemma tryFrom_unverified (rest : List Char) :
    OstreeImageReference.tryFrom ("ostree-unverified-image".data ++ ':' :: rest)
      = (ImageReference.tryFrom rest).map (⟨.ContainerPolicyAllowInsecure, ·⟩) := by
  unfold OstreeImageReference.tryFrom
  rw [splitOnce_append _ _ (by decide)]
  rfl

lemma tryFrom_remote_image (r rest : List Char) (hr : ':' ∉ r) :
    OstreeImageReference.tryFrom
        ("ostree-remote-image".data ++ ':' :: (r ++ ':' :: rest))
      = (ImageReference.tryFrom rest).map (⟨.OstreeRemote r, ·⟩) := by
  unfold OstreeImageReference.tryFrom
  rw [splitOnce_append _ _ (by decide)]
  show (if (("ostree-remote-image".data : List Char) = "ostree-image-signed".data) then _
    else _) = _
  rw [if_neg (by decide), if_neg (by decide), if_neg (by decide),
    if_neg (by decide), if_pos rfl, splitOnce_append _ _ hr]

/-- C4 counterexample: a remote name containing `:` does not survive the
round trip — printing splices it into the textual form, and re-parsing
cuts the remote at the first colon. -/
theorem ostree_image_reference_roundtrip_counterexample :
    OstreeImageReference.tryFrom
      (OstreeImageReference.toChars
        ⟨.OstreeRemote "a:b".data, ⟨.Registry, "x".data⟩⟩) ≠
      some ⟨.OstreeRemote "a:b".data, ⟨.Registry, "x".data⟩⟩ := by
  decide

/-- C4 (amended): `parse(print(x)) = x` for every `OstreeImageReference`
whose `OstreeRemote` remote name (if any) contains no colon and whose
image name is non-empty unless the transport is `Registry`. -/
theorem ostree_image_reference_roundtrip (x : OstreeImageReference)
    (hremote : ∀ r, x.sigverify = .OstreeRemote r → ':' ∉ r)
    (hname : x.imgref.transport = .Registry ∨ x.imgref.name ≠ []) :
    OstreeImageReference.tryFrom x.toChars = some x := by
  obtain ⟨sv, i⟩ := x
  cases sv with
  | ContainerPolicy =>
    have hshape : OstreeImageReference.toChars ⟨.ContainerPolicy, i⟩
        = "ostree-image-signed".data ++ ':' :: i.toChars := by
      show ("ostree-image-signed".data ++ ":".data) ++ i.toChars = _
      rw [List.append_assoc]
      rfl
    rw [hshape, tryFrom_signed, imgref_roundtrip i hname]
    rfl
  | ContainerPolicyAllowInsecure =>
    have hshape : OstreeImageReference.toChars ⟨.ContainerPolicyAllowInsecure, i⟩
        = "ostree-unverified-image".data ++ ':' :: i.toChars := by
      show ("ostree-unverified-image".data ++ ":".data) ++ i.toChars = _
      rw [List.append_assoc]
      rfl
    rw [hshape, tryFrom_unverified, imgref_roundtrip i hname]
    rfl
  | OstreeRemote r =>
    have hr : ':' ∉ r := hremote r rfl
    have hshape : OstreeImageReference.toChars ⟨.OstreeRemote r, i⟩
        = "ostree-remote-image".data ++ ':' :: (r ++ ':' :: i.toChars) := by
      show (("ostree-remote-image:".data ++ r) ++ ":".data) ++ i.toChars = _
      rw [List.append_assoc, List.append_assoc]
      rfl
    rw [hshape, tryFrom_remote_image r i.toChars hr, imgref_roundtrip i hname]
    rfl

/-- Witness for C4 (amended) at a concrete reference value. -/
theorem ostree_image_reference_roundtrip_witness :
    (∀ r, (OstreeImageReference.mk (.OstreeRemote "myremote".data)
        ⟨.Registry, "quay.io/exampleos/blah".data⟩).sigverify
        = .OstreeRemote r → ':' ∉ r) ∧
    OstreeImageReference.tryFrom
      (OstreeImageReference.toChars
        ⟨.OstreeRemote "myremote".data, ⟨.Registry, "quay.io/exampleos/blah".data⟩⟩) =
      some ⟨.OstreeRemote "myremote".data, ⟨.Registry, "quay.io/exampleos/blah".data⟩⟩ :=
  ⟨fun r h => by
      injection h with h
      subst h
      decide,
   ostree_image_reference_roundtrip
     ⟨.OstreeRemote "myremote".data, ⟨.Registry, "quay.io/exampleos/blah".data⟩⟩
     (fun r h => by
       injection h with h
       subst h
       decide)
     (Or.inl rfl)⟩

/-! ## `join_fetch` (src/container/unencapsulate.rs)

An `anyhow::Error` is a root cause plus a stack of context messages;
`context` pushes a message and leaves the root cause unchanged. -/

structure AnyhowError where
  rootCause : List Char
  contexts : List (List Char)
deriving DecidableEq, Repr

/-- `anyhow::Error::context`. -/
def AnyhowError.context (e : AnyhowError) (msg : List Char) : AnyhowError :=
  { e with contexts := msg :: e.contexts }

/-- `str::ends_with`. -/
def endsWithChars (suffix s : List Char) : Bool :=
  suffix.isSuffixOf s

/-- `join_fetch` on the already-awaited worker and driver outcomes: both
futures are joined and their results reconciled; the `broken pipe`
heuristic attributes a driver pipe failure to the worker's own error. -/
def join_fetch {T : Type} (worker : Except AnyhowError T)
    (driver : Except AnyhowError Unit) : Except AnyhowError T :=
  match worker, driver with
  | .ok t, .ok () => .ok t
  | .error worker, .error driver =>
    let text := driver.rootCause
    if endsWithChars "broken pipe".data text then .error worker
    else .error (worker.context
      ("proxy failure: ".data ++ text ++ " and client error".data))
  | .ok _, .error driver => .error driver
  | .error worker, .ok () => .error worker

/-- C5: the four reconciliation outcomes of `join_fetch`: both succeed →
worker value; both fail with the driver's root cause ending in
`broken pipe` → the worker error unmodified; both fail otherwise → the
worker error with the driver error attached as context; a single failing
side → that side's error. -/
theorem join_fetch_spec {T : Type} (worker : Except AnyhowError T)
    (driver : Except AnyhowError Unit) :
    (∀ t, worker = .ok t → driver = .ok () →
      join_fetch worker driver = .ok t) ∧
    (∀ w d, worker = .error w → driver = .error d →
      endsWithChars "broken pipe".data d.rootCause = true →
      join_fetch worker driver = .error w) ∧
    (∀ w d, worker = .error w → driver = .error d →
      endsWithChars "broken pipe".data d.rootCause = false →
      join_fetch worker driver = .error (w.context
        ("proxy failure: ".data ++ d.rootCause ++ " and client error".data))) ∧
    (∀ t d, worker = .ok t → driver = .error d →
      join_fetch worker driver = .error d) ∧
    (∀ w, worker = .error w → driver = .ok () →
      join_fetch worker driver = .error w) := by
  refine ⟨?_, ?_, ?_, ?_, ?_⟩
  · intro t hw hd
    subst hw; subst hd
    rfl
  · intro w d hw hd hbp
    subst hw; subst hd
    simp [join_fetch, hbp]
  · intro w d hw hd hbp
    subst hw; subst hd
    simp [join_fetch, hbp]
  · intro t d hw hd
    subst hw; subst hd
    rfl
  · intro w hw hd
    subst hw; subst hd
    rfl

/-- Witness for C5: the broken-pipe case at concrete errors. -/
theorem join_fetch_spec_witness :
    endsWithChars "broken pipe".data
      "write: broken pipe".data = true ∧
    join_fetch (T := Nat) (.error ⟨"worker failed".data, []⟩)
      (.error ⟨"write: broken pipe".data, []⟩)
      = .error ⟨"worker failed".data, []⟩ :=
  ⟨by decide,
   (join_fetch_spec (.error ⟨"worker failed".data, []⟩)
      (.error ⟨"write: broken pipe".data, []⟩)).2.1
     ⟨"worker failed".data, []⟩ ⟨"write: broken pipe".data, []⟩ rfl rfl
     (by decide)⟩

/-! ## `ProgressReader` (src/container/unencapsulate.rs)

`ProgressReader::new` builds a `tokio::sync::watch::channel(1)`; every
successful `poll_read` adds the number of bytes just read to the value
borrowed from the channel and publishes the sum.  The channel value
sequence for a run is determined by the byte counts of the successive
reads (`chunks`); the forwarding task re-publishes each update to the
progress sink as a `LayerProgress`. -/

structure LayerProgress where
  layer_index : Nat
  fetched : Nat
  total : Nat
deriving DecidableEq, Repr

/-- The value published by `watch::channel(1)` at creation. -/
def progressInitialValue : Nat := 1

/-- The successive published values starting from state `s`. -/
def progressUpdatesFrom (s : Nat) : List Nat → List Nat
  | [] => []
  | n :: rest => (s + n) :: progressUpdatesFrom (s + n) rest

/-- The `fetched` counts published by a `ProgressReader` run whose reads
deliver `chunks` bytes respectively. -/
def progressUpdates (chunks : List Nat) : List Nat :=
  progressUpdatesFrom progressInitialValue chunks

/-- The `LayerProgress` records forwarded into the progress sink. -/
def sinkUpdates (layerIndex total : Nat) (chunks : List Nat) :
    List LayerProgress :=
  (progressUpdates chunks).map (fun v => ⟨layerIndex, v, total⟩)

lemma progressUpdatesFrom_head (s : Nat) (l : List Nat) :
    ∀ v, (progressUpdatesFrom s l).head? = some v → s ≤ v := by
  cases l with
  | nil => intro v h; simp [progressUpdatesFrom] at h
  | cons n rest =>
    intro v h
    simp [progressUpdatesFrom] at h
    omega

lemma progressUpdatesFrom_chain (l : List Nat) :
    ∀ s, List.Chain' (· ≤ ·) (progressUpdatesFrom s l) := by
  induction l with
  | nil => intro s; simp [progressUpdatesFrom]
  | cons n rest ih =>
    intro s
    show List.Chain' (· ≤ ·) ((s + n) :: progressUpdatesFrom (s + n) rest)
    rw [List.chain'_cons']
    exact ⟨fun y hy => progressUpdatesFrom_head (s + n) rest y hy, ih (s + n)⟩

lemma progressUpdatesFrom_last (l : List Nat) :
    ∀ s, l ≠ [] → (progressUpdatesFrom s l).getLast? = some (s + l.sum) := by
  induction l with
  | nil => intro s h; exact absurd rfl h
  | cons n rest ih =>
    intro s _
    by_cases hr : rest = []
    · subst hr; simp [progressUpdatesFrom]
    · obtain ⟨m, r2, rfl⟩ := List.exists_cons_of_ne_nil hr
      show (progressUpdatesFrom (s + n) (m :: r2)).getLast?
          = some (s + (n :: m :: r2).sum)
      rw [ih (s + n) (by simp)]
      congr 1
      simp [List.sum_cons]
      omega

/-- C7 counterexample: a blob of size 5 read in one 5-byte chunk delivers
a final `fetched` of 6, not the blob size — the watch channel starts at 1
and each read adds the bytes read to the borrowed value. -/
theorem progress_reader_final_counterexample :
    List.sum [5] = 5 ∧
    sinkUpdates 0 5 [5] = [⟨0, 6, 5⟩] ∧
    (6 : Nat) ≠ 5 := by
  decide

/-- C7 (amended): the `fetched` counts delivered to the sink are
monotonically non-decreasing, and for a fully read blob (reads summing to
the blob size, at least one read) the final delivered count is the blob
size plus one, the channel's initial value. -/
theorem progress_reader_monotone (layerIndex total : Nat)
    (chunks : List Nat) :
    List.Chain' (fun a b => a.fetched ≤ b.fetched)
      (sinkUpdates layerIndex total chunks) ∧
    (chunks ≠ [] → chunks.sum = total →
      ((sinkUpdates layerIndex total chunks).getLast?).map LayerProgress.fetched
        = some (total + 1)) := by
  constructor
  · unfold sinkUpdates
    rw [List.chain'_map]
    exact progressUpdatesFrom_chain chunks progressInitialValue
  · intro hne hsum
    unfold sinkUpdates progressUpdates
    rw [List.getLast?_map, progressUpdatesFrom_last chunks progressInitialValue hne]
    simp [progressInitialValue, hsum]
    omega

/-- Witness for C7 (amended): a 3-then-4 byte read of a 7-byte blob. -/
theorem progress_reader_monotone_witness :
    ([3, 4] : List Nat) ≠ [] ∧ List.sum [3, 4] = 7 ∧
    List.Chain' (fun a b => a.fetched ≤ b.fetched) (sinkUpdates 2 7 [3, 4]) ∧
    ((sinkUpdates 2 7 [3, 4]).getLast?).map LayerProgress.fetched = some 8 :=
  ⟨by decide, by decide, (progress_reader_monotone 2 7 [3, 4]).1,
   (progress_reader_monotone 2 7 [3, 4]).2 (by decide) (by decide)⟩

/-! ## OCI manifests and `ManifestDiff` (src/container/mod.rs) -/

inductive MediaType where
  | ImageLayerGzip : MediaType
  | ImageLayer : MediaType
  | otherMedia : MediaType
deriving DecidableEq, Repr

structure Descriptor where
  digest : String
  size : Nat
  mediaType : MediaType
deriving DecidableEq, Repr

structure ImageManifest where
  layers : List Descriptor
deriving DecidableEq, Repr

/-- The comparison `a.digest().cmp(b.digest())` used by `sort_by`. -/
def descLe (a b : Descriptor) : Prop := a.digest ≤ b.digest

instance : DecidableRel descLe := fun a b => by
  unfold descLe; infer_instance

instance : IsTotal Descriptor descLe := ⟨fun a b => le_total a.digest b.digest⟩

instance : IsTrans Descriptor descLe :=
  ⟨fun _ _ _ hab hbc => le_trans hab hbc⟩

/-- The `HashMap` keyed by layer digest built in `ManifestDiff::new`. -/
def layersMap (l : List Descriptor) : List (String × Descriptor) :=
  l.foldl (fun m d => insertReplace m d.digest d) []

/-- `HashMap::contains_key`. -/
def containsKey (m : List (String × Descriptor)) (k : String) : Bool :=
  (lookupKey m k).isSome

structure ManifestDiff where
  fromManifest : ImageManifest
  toManifest : ImageManifest
  removed : List Descriptor
  added : List Descriptor
deriving DecidableEq, Repr

/-- `ManifestDiff::new`: layers of each side keyed by digest; `removed` =
source entries whose digest is absent from the destination, `added` the
converse; both sorted ascending by digest. -/
def ManifestDiff.new (src dest : ImageManifest) : ManifestDiff :=
  let srcLayers := layersMap src.layers
  let destLayers := layersMap dest.layers
  let removed :=
    (srcLayers.filter (fun p => !containsKey destLayers p.1)).map Prod.snd
  let removed := List.insertionSort descLe removed
  let added :=
    (destLayers.filter (fun p => !containsKey srcLayers p.1)).map Prod.snd
  let added := List.insertionSort descLe added
  ⟨src, dest, removed, added⟩

/-! ## Facts about `ManifestDiff` (claim C8) -/

lemma lookupKey_insertReplace_self {α : Type} [DecidableEq α] {β : Type}
    (m : List (α × β)) (k : α) (v : β) :
    lookupKey (insertReplace m k v) k = some v := by
  induction m with
  | nil => simp [insertReplace, lookupKey]
  | cons a rest ih =>
    unfold insertReplace
    by_cases hk : a.1 = k
    · rw [if_pos hk]
      simp [lookupKey]
    · rw [if_neg hk]
      unfold lookupKey
      rw [if_neg hk]
      exact ih

lemma lookupKey_insertReplace_other {α : Type} [DecidableEq α] {β : Type}
    (m : List (α × β)) (k : α) (v : β) (k' : α) (h : k ≠ k') :
    lookupKey (insertReplace m k v) k' = lookupKey m k' := by
  induction m with
  | nil => simp [insertReplace, lookupKey, h]
  | cons a rest ih =>
    unfold insertReplace
    by_cases hk : a.1 = k
    · rw [if_pos hk]
      unfold lookupKey
      rw [if_neg h, if_neg (hk ▸ h)]
    · rw [if_neg hk]
      unfold lookupKey
      by_cases hk' : a.1 = k'
      · rw [if_pos hk', if_pos hk']
      · rw [if_neg hk', if_neg hk']
        exact ih

lemma insertReplace_mem {α : Type} [DecidableEq α] {β : Type}
    (m : List (α × β)) (k : α) (v : β) (kv : α × β)
    (h : kv ∈ insertReplace m k v) : kv ∈ m ∨ kv = (k, v) := by
  induction m with
  | nil => simp [insertReplace] at h; right; exact h
  | cons a rest ih =>
    unfold insertReplace at h
    by_cases hk : a.1 = k
    · rw [if_pos hk] at h
      rcases List.mem_cons.mp h with h' | h'
      · right; exact h'
      · left; exact List.mem_cons_of_mem a h'
    · rw [if_neg hk] at h
      rcases List.mem_cons.mp h with h' | h'
      · left; rw [h']; exact List.mem_cons_self a rest
      · rcases ih h' with h'' | h''
        · left; exact List.mem_cons_of_mem a h''
        · right; exact h''

lemma layersMap_mem_aux (l : List Descriptor) :
    ∀ (m : List (String × Descriptor)) (kv : String × Descriptor),
    kv ∈ l.foldl (fun m d => insertReplace m d.digest d) m →
    kv ∈ m ∨ ∃ d ∈ l, kv = (d.digest, d) := by
  induction l with
  | nil => intro m kv h; left; exact h
  | cons d rest ih =>
    intro m kv h
    rw [List.foldl_cons] at h
    rcases ih _ kv h with h' | ⟨d', hd', hkv⟩
    · rcases insertReplace_mem m d.digest d kv h' with h'' | h''
      · left; exact h''
      · right; exact ⟨d, List.mem_cons_self d rest, h''⟩
    · right; exact ⟨d', List.mem_cons_of_mem d hd', hkv⟩

lemma layersMap_mem (l : List Descriptor) (kv : String × Descriptor)
    (h : kv ∈ layersMap l) : kv.1 = kv.2.digest ∧ kv.2 ∈ l := by
  rcases layersMap_mem_aux l [] kv h with h' | ⟨d, hd, hkv⟩
  · simp at h'
  · rw [hkv]
    exact ⟨rfl, hd⟩

lemma containsKey_layersMap_aux (l : List Descriptor) :
    ∀ (m : List (String × Descriptor)) (g : String),
    containsKey (l.foldl (fun m d => insertReplace m d.digest d) m) g = true ↔
    (containsKey m g = true ∨ ∃ d ∈ l, d.digest = g) := by
  induction l with
  | nil => intro m g; simp
  | cons d rest ih =>
    intro m g
    rw [List.foldl_cons, ih]
    constructor
    · rintro (h | ⟨d', hd', hg⟩)
      · by_cases hk : d.digest = g
        · right; exact ⟨d, List.mem_cons_self d rest, hk⟩
        · left
          unfold containsKey at h ⊢
          rw [lookupKey_insertReplace_other m d.digest d g hk] at h
          exact h
      · right; exact ⟨d', List.mem_cons_of_mem d hd', hg⟩
    · rintro (h | ⟨d', hd', hg⟩)
      · left
        unfold containsKey at h ⊢
        by_cases hk : d.digest = g
        · subst hk
          rw [lookupKey_insertReplace_self m d.digest d]
          rfl
        · rw [lookupKey_insertReplace_other m d.digest d g hk]
          exact h
      · rcases List.mem_cons.mp hd' with h' | h'
        · left
          unfold containsKey
          subst h'
          subst hg
          rw [lookupKey_insertReplace_self m d'.digest d']
          rfl
        · right; exact ⟨d', h', hg⟩

lemma containsKey_layersMap (l : List Descriptor) (g : String) :
    containsKey (layersMap l) g = true ↔ ∃ d ∈ l, d.digest = g := by
  rw [layersMap, containsKey_layersMap_aux l [] g]
  simp [containsKey, lookupKey]

lemma containsKey_some (m : List (String × Descriptor)) (g : String)
    (h : containsKey m g = true) : ∃ v, lookupKey m g = some v := by
  unfold containsKey at h
  cases hv : lookupKey m g with
  | none => rw [hv] at h; simp at h
  | some v => exact ⟨v, rfl⟩

lemma manifest_removed_digest (a b : ImageManifest) (g : String) :
    (∃ d ∈ (ManifestDiff.new a b).removed, d.digest = g) ↔
    ((∃ d ∈ a.layers, d.digest = g) ∧ ¬∃ d ∈ b.layers, d.digest = g) := by
  have hmem : ∀ d : Descriptor,
      d ∈ (ManifestDiff.new a b).removed ↔
      d ∈ ((layersMap a.layers).filter
        (fun p => !containsKey (layersMap b.layers) p.1)).map Prod.snd :=
    fun d => (List.perm_insertionSort descLe _).mem_iff
  constructor
  · rintro ⟨d, hd, hg⟩
    rw [hmem d, List.mem_map] at hd
    obtain ⟨p, hp, hpd⟩ := hd
    rw [List.mem_filter] at hp
    obtain ⟨hpmem, hpP⟩ := hp
    obtain ⟨hp1, hp2⟩ := layersMap_mem a.layers p hpmem
    constructor
    · exact ⟨p.2, hp2, by rw [hpd, hg]⟩
    · intro hb
      have hcb := (containsKey_layersMap b.layers g).mpr hb
      rw [Bool.not_eq_true'] at hpP
      rw [hp1, hpd, hg] at hpP
      rw [hcb] at hpP
      simp at hpP
  · rintro ⟨⟨d0, hd0, hg0⟩, hnb⟩
    have hca : containsKey (layersMap a.layers) g = true :=
      (containsKey_layersMap a.layers g).mpr ⟨d0, hd0, hg0⟩
    obtain ⟨v, hv⟩ := containsKey_some _ _ hca
    have hmem2 := lookupKey_mem _ _ _ hv
    obtain ⟨hv1, hv2⟩ := layersMap_mem a.layers (g, v) hmem2
    have hcb : containsKey (layersMap b.layers) g = false := by
      cases hcb' : containsKey (layersMap b.layers) g
      · rfl
      · exact absurd ((containsKey_layersMap b.layers g).mp hcb') hnb
    refine ⟨v, ?_, hv1.symm⟩
    rw [hmem v, List.mem_map]
    refine ⟨(g, v), List.mem_filter.mpr ⟨hmem2, ?_⟩, rfl⟩
    simp [hcb]

lemma manifest_diff_swap (a b : ImageManifest) :
    (ManifestDiff.new a b).added = (ManifestDiff.new b a).removed := rfl

/-- C8: `ManifestDiff::new` computes `removed`/`added` as the digest-keyed
set differences of the two layer lists, both sorted ascending by digest;
hence the self-diff is empty and `added` of `(a, b)` coincides with
`removed` of `(b, a)` (here even as sorted lists, hence as sets). -/
theorem manifest_diff_spec (a b : ImageManifest) :
    (∀ g : String,
      (∃ d ∈ (ManifestDiff.new a b).removed, d.digest = g) ↔
      ((∃ d ∈ a.layers, d.digest = g) ∧ ¬∃ d ∈ b.layers, d.digest = g)) ∧
    (∀ g : String,
      (∃ d ∈ (ManifestDiff.new a b).added, d.digest = g) ↔
      ((∃ d ∈ b.layers, d.digest = g) ∧ ¬∃ d ∈ a.layers, d.digest = g)) ∧
    List.Sorted descLe (ManifestDiff.new a b).removed ∧
    List.Sorted descLe (ManifestDiff.new a b).added ∧
    (ManifestDiff.new a a).removed = [] ∧
    (ManifestDiff.new a a).added = [] ∧
    ((ManifestDiff.new a b).added = (ManifestDiff.new b a).removed ∧
      ∀ d : Descriptor,
        d ∈ (ManifestDiff.new a b).added ↔ d ∈ (ManifestDiff.new b a).removed) := by
  have hselfRemoved : (ManifestDiff.new a a).removed = [] := by
    have hfilter : (layersMap a.layers).filter
        (fun p => !containsKey (layersMap a.layers) p.1) = [] := by
      rw [List.filter_eq_nil_iff]
      intro p hp
      obtain ⟨hp1, hp2⟩ := layersMap_mem a.layers p hp
      have : containsKey (layersMap a.layers) p.1 = true :=
        (containsKey_layersMap a.layers p.1).mpr ⟨p.2, hp2, hp1.symm⟩
      simp [this]
    show List.insertionSort descLe (((layersMap a.layers).filter
      (fun p => !containsKey (layersMap a.layers) p.1)).map Prod.snd) = []
    rw [hfilter]
    rfl
  refine ⟨fun g => manifest_removed_digest a b g, ?_, ?_, ?_, hselfRemoved, ?_, ?_⟩
  · intro g
    rw [manifest_diff_swap a b]
    exact manifest_removed_digest b a g
  · exact List.sorted_insertionSort descLe _
  · exact List.sorted_insertionSort descLe _
  · rw [manifest_diff_swap a a]
    exact hselfRemoved
  · exact ⟨manifest_diff_swap a b, fun d => by rw [manifest_diff_swap a b]⟩

/-! ## Image proxy sessions (src/container/unencapsulate.rs)

The out-of-process proxy is modelled as a state (the set of open image
handles) plus an oracle supplying the data of successful responses; the
`open_image` / `fetch_manifest` / `fetch_config` / `close_image` calls of
the success path thread this state. -/

structure ImageConfiguration where
  raw : Nat
deriving DecidableEq, Repr

structure ProxyState where
  nextHandle : Nat
  openImages : List Nat
deriving DecidableEq, Repr

/-- `ImageProxy::new()`: a fresh proxy with no open images. -/
def ProxyState.new : ProxyState := ⟨0, []⟩

structure ProxyOracle where
  manifest : ImageManifest
  digest : List Char
  config : ImageConfiguration
deriving Repr

/-- `proxy.open_image(name)`: returns a fresh handle. -/
def proxyOpenImage (st : ProxyState) (_name : List Char) : Nat × ProxyState :=
  (st.nextHandle, ⟨st.nextHandle + 1, st.openImages ++ [st.nextHandle]⟩)

/-- `proxy.fetch_manifest(oi)`. -/
def proxyFetchManifest (oracle : ProxyOracle) (st : ProxyState) (_oi : Nat) :
    (List Char × ImageManifest) × ProxyState :=
  ((oracle.digest, oracle.manifest), st)

/-- `proxy.fetch_config(oi)`. -/
def proxyFetchConfig (oracle : ProxyOracle) (st : ProxyState) (_oi : Nat) :
    ImageConfiguration × ProxyState :=
  (oracle.config, st)

/-- `proxy.close_image(oi)`. -/
def proxyCloseImage (st : ProxyState) (oi : Nat) : ProxyState :=
  ⟨st.nextHandle, st.openImages.erase oi⟩

/-- `fetch_manifest_impl`: open, fetch the manifest, close, return. -/
def fetch_manifest_impl (oracle : ProxyOracle) (st : ProxyState)
    (imgref : OstreeImageReference) :
    (ImageManifest × List Char) × ProxyState :=
  let (oi, st1) := proxyOpenImage st imgref.imgref.toChars
  let ((digest, manifest), st2) := proxyFetchManifest oracle st1 oi
  let st3 := proxyCloseImage st2 oi
  ((manifest, digest), st3)

/-- `fetch_manifest`: a fresh proxy, then `fetch_manifest_impl`. -/
def fetch_manifest (oracle : ProxyOracle) (imgref : OstreeImageReference) :
    (ImageManifest × List Char) × ProxyState :=
  fetch_manifest_impl oracle ProxyState.new imgref

/-- `fetch_manifest_and_config`: a fresh proxy; open, fetch the manifest,
fetch the config, and return — without closing the image handle. -/
def fetch_manifest_and_config (oracle : ProxyOracle)
    (imgref : OstreeImageReference) :
    (ImageManifest × List Char × ImageConfiguration) × ProxyState :=
  let (oi, st1) := proxyOpenImage ProxyState.new imgref.imgref.toChars
  let ((digest, manifest), st2) := proxyFetchManifest oracle st1 oi
  let (config, st3) := proxyFetchConfig oracle st2 oi
  ((manifest, digest, config), st3)

/-- The concrete oracle and reference used in the C9 counterexample. -/
def c9oracle : ProxyOracle := ⟨⟨[]⟩, "sha256:d0".data, ⟨0⟩⟩

def c9imgref : OstreeImageReference :=
  ⟨.ContainerPolicy, ⟨.Registry, "quay.io/exampleos/blah".data⟩⟩

/-- C9 counterexample: `fetch_manifest_and_config` returns with the image
handle it opened still open, while `fetch_manifest` closes its handle. -/
theorem fetch_manifest_and_config_leaves_open :
    (fetch_manifest_and_config c9oracle c9imgref).2.openImages = [0] ∧
    (fetch_manifest c9oracle c9imgref).2.openImages = [] := ⟨rfl, rfl⟩

/-- C9 (amended): for every oracle and reference, `fetch_manifest` (via
`fetch_manifest_impl`) returns with no open image handle, whereas
`fetch_manifest_and_config` returns its `(manifest, digest, config)`
result with the opened handle still registered in the proxy. -/
theorem fetch_manifest_and_config_open_handles (oracle : ProxyOracle)
    (imgref : OstreeImageReference) :
    (fetch_manifest oracle imgref).2.openImages = [] ∧
    (fetch_manifest oracle imgref).1
      = (oracle.manifest, oracle.digest) ∧
    (fetch_manifest_and_config oracle imgref).2.openImages = [0] ∧
    (fetch_manifest_and_config oracle imgref).1
      = (oracle.manifest, oracle.digest, oracle.config) := by
  refine ⟨?_, rfl, rfl, rfl⟩
  show ([0] : List Nat).erase 0 = []
  rfl

/-! ## `fetch_layer_decompress` (src/container/unencapsulate.rs)

Only the control flow deciding the outcome is modelled: the computed
`layer_index` (`position(..).unwrap()`, whose `None` case panics), the
blob source selection by transport, and the decompressor selection by
media type.  `panicked` is distinct from the `failed` outcome that models
returned `Err` values. -/

structure ConvertedLayerInfo where
  digest : String
  size : Nat
  mediaType : MediaType
deriving DecidableEq, Repr

inductive FetchOutcome where
  | panicked : FetchOutcome
  | failed : FetchOutcome
  | fetched (layerIndex : Nat) (digest : String) (size : Nat)
      (gzip : Bool) : FetchOutcome
deriving DecidableEq, Repr

/-- `new_async_decompressor`: gzip for `ImageLayerGzip`, identity for
`ImageLayer`, error otherwise. -/
def new_async_decompressor : MediaType → Option Bool
  | .ImageLayerGzip => some true
  | .ImageLayer => some false
  | .otherMedia => none

/-- The blob fetch and decompressor selection once `layer_index` exists. -/
def fetch_blob_for_layer (layerIndex : Nat) (layer : Descriptor)
    (layerInfo : Option (List ConvertedLayerInfo))
    (transportSrc : Transport) : FetchOutcome :=
  match transportSrc with
  | .ContainerStorage =>
    match layerInfo with
    | none => .failed
    | some li =>
      match li.get? layerIndex with
      | none => .failed
      | some lb =>
        match new_async_decompressor lb.mediaType with
        | none => .failed
        | some gz => .fetched layerIndex lb.digest lb.size gz
  | _ =>
    match new_async_decompressor layer.mediaType with
    | none => .failed
    | some gz => .fetched layerIndex layer.digest layer.size gz

/-- `fetch_layer_decompress`: `layer_index` is the unwrapped position of
the descriptor in `manifest.layers()`; an absent position panics. -/
def fetch_layer_decompress (manifest : ImageManifest) (layer : Descriptor)
    (layerInfo : Option (List ConvertedLayerInfo))
    (transportSrc : Transport) : FetchOutcome :=
  match manifest.layers.findIdx? (· == layer) with
  | none => .panicked
  | some layerIndex => fetch_blob_for_layer layerIndex layer layerInfo transportSrc

lemma fetch_blob_ne_panicked (layerIndex : Nat) (layer : Descriptor)
    (layerInfo : Option (List ConvertedLayerInfo)) (t : Transport) :
    fetch_blob_for_layer layerIndex layer layerInfo t ≠ .panicked := by
  unfold fetch_blob_for_layer
  cases t
  case ContainerStorage =>
    cases layerInfo with
    | none => simp
    | some li =>
      cases hlb : li[layerIndex]? with
      | none => simp [hlb]
      | some lb =>
        cases hmt : new_async_decompressor lb.mediaType <;> simp [hlb, hmt]
  all_goals
    cases new_async_decompressor layer.mediaType <;> simp

lemma findIdx_position (l : List Descriptor) (x : Descriptor) (h : x ∈ l) :
    ∃ i, l.findIdx? (· == x) = some i ∧ i < l.length ∧
      l.get? i = some x ∧ ∀ j < i, l.get? j ≠ some x := by
  induction l with
  | nil => simp at h
  | cons a rest ih =>
    by_cases ha : a = x
    · subst ha
      refine ⟨0, ?_, by simp, rfl, by omega⟩
      rw [List.findIdx?_cons]
      simp
    · have hx : x ∈ rest := by
        rcases List.mem_cons.mp h with h' | h'
        · exact absurd h'.symm ha
        · exact h'
      obtain ⟨i, hfind, hlen, hget, hfirst⟩ := ih hx
      refine ⟨i + 1, ?_, by simp; omega, hget, ?_⟩
      · rw [List.findIdx?_cons]
        have : (a == x) = false := by simp [ha]
        rw [this]
        simp [hfind]
      · intro j hj
        cases j with
        | zero =>
          intro hcontra
          simp at hcontra
          exact ha hcontra
        | succ j' => exact hfirst j' (by omega)

lemma findIdx_not_mem (l : List Descriptor) (x : Descriptor) (h : x ∉ l) :
    l.findIdx? (· == x) = none := by
  induction l with
  | nil => rfl
  | cons a rest ih =>
    have ha : (a == x) = false := by
      simp
      intro hcontra
      exact h (hcontra ▸ List.mem_cons_self a rest)
    rw [List.findIdx?_cons, ha]
    simp [ih (fun hx => h (List.mem_cons_of_mem a hx))]

/-- C10: `fetch_layer_decompress` requires `layer ∈ manifest.layers()`:
then the computed `layer_index` is the descriptor's (first) position and
is below the layer count, and the unwrap cannot panic; a descriptor
absent from the layer list makes the function panic rather than return an
error. -/
theorem fetch_layer_decompress_index (manifest : ImageManifest)
    (layer : Descriptor) (layerInfo : Option (List ConvertedLayerInfo))
    (transportSrc : Transport) :
    (layer ∈ manifest.layers →
      ∃ i, manifest.layers.findIdx? (· == layer) = some i ∧
        i < manifest.layers.length ∧
        manifest.layers.get? i = some layer ∧
        (∀ j < i, manifest.layers.get? j ≠ some layer) ∧
        fetch_layer_decompress manifest layer layerInfo transportSrc
          = fetch_blob_for_layer i layer layerInfo transportSrc ∧
        fetch_layer_decompress manifest layer layerInfo transportSrc
          ≠ .panicked) ∧
    (layer ∉ manifest.layers →
      fetch_layer_decompress manifest layer layerInfo transportSrc
        = .panicked) := by
  constructor
  · intro h
    obtain ⟨i, hfind, hlen, hget, hfirst⟩ :=
      findIdx_position manifest.layers layer h
    have heq : fetch_layer_decompress manifest layer layerInfo transportSrc
        = fetch_blob_for_layer i layer layerInfo transportSrc := by
      unfold fetch_layer_decompress
      rw [hfind]
    exact ⟨i, hfind, hlen, hget, hfirst, heq,
      heq ▸ fetch_blob_ne_panicked i layer layerInfo transportSrc⟩
  · intro h
    unfold fetch_layer_decompress
    rw [findIdx_not_mem manifest.layers layer h]

/-- Witness for C10 at a concrete manifest: the in-list case and the
absent-descriptor panic. -/
theorem fetch_layer_decompress_index_witness :
    ((⟨"sha256:bb".data.asString, 5, .ImageLayerGzip⟩ : Descriptor) ∈
      (ImageManifest.mk [⟨"sha256:aa".data.asString, 3, .ImageLayer⟩,
        ⟨"sha256:bb".data.asString, 5, .ImageLayerGzip⟩]).layers) ∧
    (∃ i, (ImageManifest.mk [⟨"sha256:aa".data.asString, 3, .ImageLayer⟩,
        ⟨"sha256:bb".data.asString, 5, .ImageLayerGzip⟩]).layers.findIdx?
          (· == ⟨"sha256:bb".data.asString, 5, .ImageLayerGzip⟩) = some i ∧
      i < 2 ∧
      (ImageManifest.mk [⟨"sha256:aa".data.asString, 3, .ImageLayer⟩,
        ⟨"sha256:bb".data.asString, 5, .ImageLayerGzip⟩]).layers.get? i
        = some ⟨"sha256:bb".data.asString, 5, .ImageLayerGzip⟩ ∧
      fetch_layer_decompress
        (ImageManifest.mk [⟨"sha256:aa".data.asString, 3, .ImageLayer⟩,
          ⟨"sha256:bb".data.asString, 5, .ImageLayerGzip⟩])
        ⟨"sha256:bb".data.asString, 5, .ImageLayerGzip⟩ none .Registry
        ≠ .panicked) := by
  constructor
  · decide
  · obtain ⟨i, h1, h2, h3, _, _, h6⟩ :=
      (fetch_layer_decompress_index
        (ImageManifest.mk [⟨"sha256:aa".data.asString, 3, .ImageLayer⟩,
          ⟨"sha256:bb".data.asString, 5, .ImageLayerGzip⟩])
        ⟨"sha256:bb".data.asString, 5, .ImageLayerGzip⟩ none .Registry).1
      (by decide)
    exact ⟨i, h1, h2, h3, h6⟩

/-! ## The `/var` validation walk (src/commit.rs)

A directory listing is a list of named entries, each a regular file or a
directory with its own listing, carrying the device number reported by
`metadata.dev()`.  `process_vardir_recurse` is the `for` loop over a
listing (`pvrLoop`) followed by the conditional removal of the directory
itself; the loop inlines that same removal logic for child directories.
`remove_dir` on a directory that still has (skipped, cross-device)
entries fails, which the `?` operator propagates. -/

inductive FsEntries where
  | nil : FsEntries
  | consFile (name : List Char) (dev : Nat) (rest : FsEntries) : FsEntries
  | consDir (name : List Char) (dev : Nat) (children : FsEntries)
      (rest : FsEntries) : FsEntries
deriving DecidableEq, Repr

/-- Path join as in the walk: `name` when the current path is empty,
`path.join(name)` otherwise. -/
def joinPath (path name : List Char) : List Char :=
  if path = [] then name else path ++ '/' :: name

/-- The entry loop of `process_vardir_recurse`: returns the validation
flag, the surviving entries (after directory removals), the error count
and the reported diagnostics (paths printed by `Found file:`). -/
def pvrLoop (rootdev : Nat) :
    List Char → FsEntries → Int →
    Except Unit (Bool × FsEntries × Int × List (List Char))
  | _, .nil, cnt => .ok (true, .nil, cnt, [])
  | path, .consFile name dev rest, cnt =>
    if dev ≠ rootdev then
      match pvrLoop rootdev path rest cnt with
      | .error e => .error e
      | .ok (v, rem, c, r) => .ok (v, .consFile name dev rem, c, r)
    else
      let childPath := joinPath path name
      let cnt' := cnt + 1
      let reps := if cnt' < 20 then ["var/".data ++ childPath] else []
      match pvrLoop rootdev path rest cnt' with
      | .error e => .error e
      | .ok (_, rem, c, r) => .ok (false, .consFile name dev rem, c, reps ++ r)
  | path, .consDir name dev children rest, cnt =>
    if dev ≠ rootdev then
      match pvrLoop rootdev path rest cnt with
      | .error e => .error e
      | .ok (v, rem, c, r) => .ok (v, .consDir name dev children rem, c, r)
    else
      let childPath := joinPath path name
      match pvrLoop rootdev childPath children cnt with
      | .error e => .error e
      | .ok (vc, remc, c1, r1) =>
        if vc = true ∧ childPath ≠ [] ∧ childPath ≠ "tmp".data then
          if remc = .nil then
            match pvrLoop rootdev path rest c1 with
            | .error e => .error e
            | .ok (vr, remr, c2, r2) => .ok (vc && vr, remr, c2, r1 ++ r2)
          else .error ()
        else
          match pvrLoop rootdev path rest c1 with
          | .error e => .error e
          | .ok (vr, remr, c2, r2) =>
            .ok (vc && vr, .consDir name dev remc remr, c2, r1 ++ r2)

/-- `process_vardir_recurse`: the loop over the listing, then the removal
of the directory itself when it validated, is not the walk root and is
not `tmp`.  `none` in the second component means the directory was
removed. -/
def process_vardir_recurse (rootdev : Nat) (path : List Char)
    (entries : FsEntries) (cnt : Int) :
    Except Unit (Bool × Option FsEntries × Int × List (List Char)) :=
  match pvrLoop rootdev path entries cnt with
  | .error e => .error e
  | .ok (v, rem, c, r) =>
    if v = true ∧ path ≠ [] ∧ path ≠ "tmp".data then
      if rem = .nil then .ok (v, none, c, r)
      else .error ()
    else .ok (v, some rem, c, r)

/-- `process_var`: walk `/var` if present; in strict mode a failed
validation is a fatal error, otherwise the diagnostics stand alone. -/
def process_var (rootdev : Nat) (varEntries : Option FsEntries)
    (strict : Bool) : Except Unit Unit :=
  match varEntries with
  | none => .ok ()
  | some es =>
    match process_vardir_recurse rootdev [] es 0 with
    | .error e => .error e
    | .ok (v, _, _, _) => if !v ∧ strict then .error () else .ok ()

/-- Specification predicate: the subtree reachable on the root device
contains no (non-directory) file entries. -/
def noFiles (rootdev : Nat) : FsEntries → Bool
  | .nil => true
  | .consFile _ dev rest => decide (dev ≠ rootdev) && noFiles rootdev rest
  | .consDir _ dev children rest =>
    (if dev = rootdev then noFiles rootdev children else true) &&
      noFiles rootdev rest

/-- Specification count: files on the root device, in traversal order. -/
def countFiles (rootdev : Nat) : FsEntries → Nat
  | .nil => 0
  | .consFile _ dev rest =>
    (if dev = rootdev then 1 else 0) + countFiles rootdev rest
  | .consDir _ dev children rest =>
    (if dev = rootdev then countFiles rootdev children else 0) +
      countFiles rootdev rest

/-- Specification list: the diagnostic paths of all root-device files in
traversal order. -/
def filePaths (rootdev : Nat) : List Char → FsEntries → List (List Char)
  | _, .nil => []
  | path, .consFile name dev rest =>
    (if dev = rootdev then ["var/".data ++ joinPath path name] else []) ++
      filePaths rootdev path rest
  | path, .consDir name dev children rest =>
    (if dev = rootdev then filePaths rootdev (joinPath path name) children
     else []) ++ filePaths rootdev path rest

lemma filePaths_length (rootdev : Nat) (t : FsEntries) :
    ∀ path, (filePaths rootdev path t).length = countFiles rootdev t := by
  induction t with
  | nil => intro path; rfl
  | consFile name dev rest ih =>
    intro path
    by_cases hd : dev = rootdev <;>
      simp [filePaths, countFiles, hd, ih path] <;> omega
  | consDir name dev children rest ihc ihr =>
    intro path
    by_cases hd : dev = rootdev <;>
      simp [filePaths, countFiles, hd, ihc, ihr path] <;> omega

lemma pvrLoop_spec (rootdev : Nat) (entries : FsEntries) :
    ∀ (path : List Char) (cnt : Int) (v : Bool) (rem : FsEntries) (c : Int)
      (r : List (List Char)), 0 ≤ cnt →
    pvrLoop rootdev path entries cnt = .ok (v, rem, c, r) →
    v = noFiles rootdev entries ∧
    c = cnt + (countFiles rootdev entries : Int) ∧
    r = (filePaths rootdev path entries).take ((19 : Int) - cnt).toNat := by
  induction entries with
  | nil =>
    intro path cnt v rem c r _ h
    have hm := Except.ok.inj h
    injection hm with hv hm
    injection hm with hrem hm
    injection hm with hc hr
    subst hv; subst hc; subst hr
    refine ⟨rfl, by simp [countFiles], by simp [filePaths]⟩
  | consFile name dev rest ih =>
    intro path cnt v rem c r hcnt h
    have h2 : (if dev ≠ rootdev then
          (match pvrLoop rootdev path rest cnt with
           | Except.error e => Except.error e
           | Except.ok (v', rem', c', r') =>
             Except.ok (v', FsEntries.consFile name dev rem', c', r'))
        else
          (match pvrLoop rootdev path rest (cnt + 1) with
           | Except.error e => Except.error e
           | Except.ok (_, rem', c', r') =>
             Except.ok (false, FsEntries.consFile name dev rem', c',
               (if cnt + 1 < 20 then ["var/".data ++ joinPath path name]
                else []) ++ r')))
        = .ok (v, rem, c, r) := h
    by_cases hd : dev ≠ rootdev
    · rw [if_pos hd] at h2
      cases hrest : pvrLoop rootdev path rest cnt with
      | error e => rw [hrest] at h2; exact absurd h2 (by simp)
      | ok out =>
        obtain ⟨v', rem', c', r'⟩ := out
        rw [hrest] at h2
        have hm := Except.ok.inj h2
        injection hm with hv hm
        injection hm with hrem hm
        injection hm with hc hr
        subst hv; subst hc; subst hr
        obtain ⟨hv1, hc1, hr1⟩ := ih path cnt v' rem' c' r' hcnt hrest
        refine ⟨by simp [noFiles, hd, hv1], ?_, by simp [filePaths, hd, hr1]⟩
        rw [hc1]
        simp [countFiles, hd]
    · rw [if_neg hd] at h2
      rw [not_not] at hd
      cases hrest : pvrLoop rootdev path rest (cnt + 1) with
      | error e => rw [hrest] at h2; exact absurd h2 (by simp)
      | ok out =>
        obtain ⟨v', rem', c', r'⟩ := out
        rw [hrest] at h2
        have hm := Except.ok.inj h2
        injection hm with hv hm
        injection hm with hrem hm
        injection hm with hc hr
        subst hv; subst hc; subst hr
        obtain ⟨hv1, hc1, hr1⟩ := ih path (cnt + 1) v' rem' c' r' (by omega) hrest
        refine ⟨by simp [noFiles, hd], ?_, ?_⟩
        · rw [hc1]
          simp [countFiles, hd]
          omega
        · rw [hr1]
          by_cases h20 : cnt + 1 < 20
          · rw [if_pos h20]
            have hN : ((19 : Int) - cnt).toNat
                = ((19 : Int) - (cnt + 1)).toNat + 1 := by omega
            simp [filePaths, hd, joinPath, hN, List.take_succ_cons]
          · rw [if_neg h20]
            have hN : ((19 : Int) - cnt).toNat = 0 := by omega
            have hN' : ((19 : Int) - (cnt + 1)).toNat = 0 := by omega
            simp [hN, hN']
  | consDir name dev children rest ihc ihr =>
    intro path cnt v rem c r hcnt h
    have h2 : (if dev ≠ rootdev then
          (match pvrLoop rootdev path rest cnt with
           | Except.error e => Except.error e
           | Except.ok (v', rem', c', r') =>
             Except.ok (v', FsEntries.consDir name dev children rem', c', r'))
        else
          (match pvrLoop rootdev (joinPath path name) children cnt with
           | Except.error e => Except.error e
           | Except.ok (vc, remc, c1, r1) =>
             if vc = true ∧ joinPath path name ≠ [] ∧
                 joinPath path name ≠ "tmp".data then
               if remc = .nil then
                 match pvrLoop rootdev path rest c1 with
                 | Except.error e => Except.error e
                 | Except.ok (vr, remr, c2, r2) => Except.ok (vc && vr, remr, c2, r1 ++ r2)
               else Except.error ()
             else
               match pvrLoop rootdev path rest c1 with
               | Except.error e => Except.error e
               | Except.ok (vr, remr, c2, r2) =>
                 .ok (vc && vr, FsEntries.consDir name dev remc remr, c2,
                   r1 ++ r2)))
        = .ok (v, rem, c, r) := h
    by_cases hd : dev ≠ rootdev
    · rw [if_pos hd] at h2
      cases hrest : pvrLoop rootdev path rest cnt with
      | error e => rw [hrest] at h2; exact absurd h2 (by simp)
      | ok out =>
        obtain ⟨v', rem', c', r'⟩ := out
        rw [hrest] at h2
        have hm := Except.ok.inj h2
        injection hm with hv hm
        injection hm with hrem hm
        injection hm with hc hr
        subst hv; subst hc; subst hr
        obtain ⟨hv1, hc1, hr1⟩ := ihr path cnt v' rem' c' r' hcnt hrest
        refine ⟨by simp [noFiles, hd, hv1], ?_, by simp [filePaths, hd, hr1]⟩
        rw [hc1]
        simp [countFiles, hd]
    · rw [if_neg hd] at h2
      rw [not_not] at hd
      cases hch : pvrLoop rootdev (joinPath path name) children cnt with
      | error e => rw [hch] at h2; exact absurd h2 (by simp)
      | ok outc =>
        obtain ⟨vc, remc, c1, r1⟩ := outc
        rw [hch] at h2
        have h3 : (if vc = true ∧ joinPath path name ≠ [] ∧
              joinPath path name ≠ "tmp".data then
            (if remc = FsEntries.nil then
              (match pvrLoop rootdev path rest c1 with
               | Except.error e => Except.error e
               | Except.ok (vr, remr, c2, r2) =>
                 Except.ok (vc && vr, remr, c2, r1 ++ r2))
             else Except.error ())
          else
            (match pvrLoop rootdev path rest c1 with
             | Except.error e => Except.error e
             | Except.ok (vr, remr, c2, r2) =>
               Except.ok (vc && vr, FsEntries.consDir name dev remc remr, c2,
                 r1 ++ r2)))
          = Except.ok (v, rem, c, r) := h2
        clear h2
        obtain ⟨hvc1, hc11, hr11⟩ :=
          ihc (joinPath path name) cnt vc remc c1 r1 hcnt hch
        have hc1pos : 0 ≤ c1 := by omega
        have hfinal : ∀ (vr : Bool) (remr : FsEntries) (c2 : Int)
            (r2 : List (List Char)),
            pvrLoop rootdev path rest c1 = .ok (vr, remr, c2, r2) →
            (vc && vr) = noFiles rootdev (.consDir name dev children rest) ∧
            c2 = cnt + (countFiles rootdev (.consDir name dev children rest) : Int) ∧
            r1 ++ r2 = (filePaths rootdev path
              (.consDir name dev children rest)).take ((19 : Int) - cnt).toNat := by
          intro vr remr c2 r2 hrest
          obtain ⟨hvr1, hc21, hr21⟩ := ihr path c1 vr remr c2 r2 hc1pos hrest
          refine ⟨by simp [noFiles, hd, hvc1, hvr1], ?_, ?_⟩
          · rw [hc21, hc11]
            simp [countFiles, hd]
            omega
          · have hxlen := filePaths_length rootdev children (joinPath path name)
            have harg : ((19 : Int) - c1).toNat
                = ((19 : Int) - cnt).toNat
                  - (filePaths rootdev (joinPath path name) children).length := by
              rw [hxlen]
              omega
            rw [hr11, hr21, harg]
            simp only [filePaths, hd, if_pos]
            rw [List.take_append_eq_append_take]
        by_cases hgate : vc = true ∧ joinPath path name ≠ [] ∧
            joinPath path name ≠ "tmp".data
        · rw [if_pos hgate] at h3
          by_cases hnil : remc = FsEntries.nil
          · rw [if_pos hnil] at h3
            cases hrest : pvrLoop rootdev path rest c1 with
            | error e => rw [hrest] at h3; exact absurd h3 (by simp)
            | ok outr =>
              obtain ⟨vr, remr, c2, r2⟩ := outr
              rw [hrest] at h3
              have hm := Except.ok.inj h3
              injection hm with hv hm
              injection hm with hrem hm
              injection hm with hc hr
              subst hv; subst hc; subst hr
              exact hfinal vr remr c2 r2 hrest
          · rw [if_neg hnil] at h3
            exact absurd h3 (by simp)
        · rw [if_neg hgate] at h3
          cases hrest : pvrLoop rootdev path rest c1 with
          | error e => rw [hrest] at h3; exact absurd h3 (by simp)
          | ok outr =>
            obtain ⟨vr, remr, c2, r2⟩ := outr
            rw [hrest] at h3
            have hm := Except.ok.inj h3
            injection hm with hv hm
            injection hm with hrem hm
            injection hm with hc hr
            subst hv; subst hc; subst hr
            exact hfinal vr remr c2 r2 hrest

/-- Build a flat listing of root-device files from a list of names. -/
def mkNFiles : List (List Char) → FsEntries
  | [] => .nil
  | n :: rest => .consFile n 0 (mkNFiles rest)

/-- Twenty distinct file names. -/
def twentyNames : List (List Char) :=
  ["a".data, "b".data, "c".data, "d".data, "e".data, "f".data, "g".data,
   "h".data, "i".data, "j".data, "k".data, "l".data, "m".data, "n".data,
   "o".data, "p".data, "q".data, "r".data, "s".data, "t".data]

/-- A `/var` listing holding twenty root-device regular files. -/
def twentyFiles : FsEntries := mkNFiles twentyNames

/-- C6 counterexample: with twenty files under `/var`, all twenty count
as errors but only the first nineteen are reported — the report guard
`error_count < 20` runs after the increment, so the twentieth file is
counted yet silent. -/
theorem process_vardir_reports_counterexample :
    countFiles 0 twentyFiles = 20 ∧
    process_vardir_recurse 0 [] twentyFiles 0 =
      .ok (false, some twentyFiles, 20, (filePaths 0 [] twentyFiles).take 19) ∧
    (filePaths 0 [] twentyFiles).length = 20 ∧
    ((filePaths 0 [] twentyFiles).take 19).length = 19 :=
  ⟨rfl, rfl, rfl, rfl⟩

/-- C6 (amended): in the `/var` walk every root-device non-directory
entry counts as an error, the first nineteen are reported, and a
successful walk returns `true` iff the `/var` subtree on the root device
contains no such entry; strict mode turns a `false` result into a fatal
error while non-strict mode succeeds. -/
theorem process_vardir_recurse_spec (rootdev : Nat) (entries : FsEntries)
    (v : Bool) (rem : Option FsEntries) (c : Int) (r : List (List Char))
    (h : process_vardir_recurse rootdev [] entries 0 = .ok (v, rem, c, r)) :
    (v = true ↔ noFiles rootdev entries = true) ∧
    c = (countFiles rootdev entries : Int) ∧
    r = (filePaths rootdev [] entries).take 19 ∧
    (v = false →
      process_var rootdev (some entries) true = .error () ∧
      process_var rootdev (some entries) false = .ok ()) := by
  have horig := h
  unfold process_vardir_recurse at h
  cases hp : pvrLoop rootdev [] entries 0 with
  | error e => rw [hp] at h; exact absurd h (by simp)
  | ok out =>
    obtain ⟨v0, rem0, c0, r0⟩ := out
    rw [hp] at h
    have h3 : (if v0 = true ∧ ([] : List Char) ≠ [] ∧
          ([] : List Char) ≠ "tmp".data then
        (if rem0 = FsEntries.nil then Except.ok (v0, none, c0, r0)
         else Except.error ())
      else Except.ok (v0, some rem0, c0, r0))
      = Except.ok (v, rem, c, r) := h
    rw [if_neg (by simp)] at h3
    have hm := Except.ok.inj h3
    injection hm with hv hm
    injection hm with hrem hm
    injection hm with hc hr
    subst hv; subst hc; subst hr
    obtain ⟨hv1, hc1, hr1⟩ :=
      pvrLoop_spec rootdev entries [] 0 v0 rem0 c0 r0 (le_refl 0) hp
    refine ⟨by rw [hv1], by rw [hc1]; simp, ?_, ?_⟩
    · rw [hr1]
      have h19 : ((19 : Int) - 0).toNat = 19 := by decide
      rw [h19]
    · intro hvf
      constructor
      · simp only [process_var, horig, hvf]
        rfl
      · simp only [process_var, horig, hvf]
        rfl

/-- Witness for C6 (amended) at the twenty-file listing. -/
theorem process_vardir_recurse_spec_witness :
    process_vardir_recurse 0 [] twentyFiles 0 =
      .ok (false, some twentyFiles, 20, (filePaths 0 [] twentyFiles).take 19) ∧
    ((false = true ↔ noFiles 0 twentyFiles = true) ∧
     (20 : Int) = (countFiles 0 twentyFiles : Int) ∧
     (filePaths 0 [] twentyFiles).take 19 = (filePaths 0 [] twentyFiles).take 19 ∧
     (false = false →
       process_var 0 (some twentyFiles) true = .error () ∧
       process_var 0 (some twentyFiles) false = .ok ())) :=
  ⟨rfl, process_vardir_recurse_spec 0 twentyFiles false (some twentyFiles) 20
    ((filePaths 0 [] twentyFiles).take 19) rfl⟩
